import Mathlib

/-!
Verification development for the `prometheus-exposition-format-rs` repository.

The Rust sources (nom-5 style parser combinators over `&str`, plus an
aggregation step over a `HashMap`) are shallowly embedded here:

* input slices `&str` become `List Char` (a successful parse returns the
  remaining suffix of its input);
* `IResult<&str, T>` with the default `(&str, ErrorKind)` error type becomes
  `Except PError (Input × α)`: `nom::Err::Error((i, kind))` is `.error ⟨i, kind⟩`
  (these parsers never use `nom::Err::Failure` / `Incomplete`);
* each nom combinator used by the sources is modelled with nom 5.1 semantics
  (`alt` returns the error of its last alternative, `opt` backtracks,
  `map_res`/`map_opt` report the error at the *original* input, ...);
* `f64` is modelled symbolically by `F64` below: the claims under study only
  depend on the NaN/±infinity classification and on *which* strings parse as
  float literals, never on IEEE rounding of finite values;
* `HashMap` accumulators become association lists; the only observable order
  of the final result is imposed by the explicit sort in `parse_complete`,
  which is faithful because the sort key (the metric name) is unique in the
  accumulator (proved below), hence the sorted sequence does not depend on the
  hash map's iteration order.

The recursive combinators (`fold_many0`, `separated_list`, the line-by-line
input driver) are written with an explicit fuel argument so that every
definition is structurally recursive and kernel-evaluable; the fuel is taken
to be (one more than) the length of the input slice, which is always
sufficient because each loop iteration consumes at least one character
(nom's own non-consumption guards are modelled faithfully and make the
out-of-fuel branches unreachable).
-/

deriving instance DecidableEq for Except

namespace PromExpo

/-- An input slice (`&str` in the source), as a list of characters. Rust
compares strings byte-wise over UTF-8; UTF-8 encoding preserves code-point
order, so list-of-`Char` lexicographic order models it faithfully. -/
abbrev Input := List Char

/-- The nom `ErrorKind`s produced by the combinators used in this crate. -/
inductive ErrKind where
  | tag | takeWhile1 | chr | crlf | mapRes | mapOpt | isNot | noneOf
  | space | many0 | sepList
deriving DecidableEq

/-- A nom error value: the input slice at the failure point plus the kind.
The crate's public `Err` type wraps the `Debug` rendering of this value; the
rendering itself is host-language formatting (out of scope per the spec), so
the payload is modelled as the underlying pair. -/
structure PError where
  input : Input
  kind : ErrKind
deriving DecidableEq

/-- Result of running a parser: remaining input and value, or an error. -/
abbrev PResult (α : Type) := Except PError (Input × α)

/-- A parser over an input slice, in the style of `Fn(&str) -> IResult<&str, α>`. -/
abbrev Parser (α : Type) := Input → PResult α

/-- Decidable test for an error result. -/
def isErr {ε α : Type} : Except ε α → Bool
  | .error _ => true
  | .ok _ => false

/-! ### nom primitive parsers -/

/-- nom `tag(s)`: consume exactly `s` or fail with `Tag` at the input. -/
def ptag (s : Input) : Parser Input := fun i =>
  if s.isPrefixOf i then .ok (i.drop s.length, s) else .error ⟨i, .tag⟩

/-- nom `char(c)`. -/
def pchar (c : Char) : Parser Char := fun i =>
  match i with
  | c' :: rest => if c' = c then .ok (rest, c) else .error ⟨i, .chr⟩
  | [] => .error ⟨i, .chr⟩

/-- nom `take_while(p)`: never fails, consumes the longest matching run. -/
def pTakeWhile (p : Char → Bool) : Parser Input := fun i =>
  .ok (i.dropWhile p, i.takeWhile p)

/-- nom `take_while1(p)`: like `take_while` but the run must be non-empty. -/
def pTakeWhile1 (p : Char → Bool) : Parser Input := fun i =>
  match i with
  | c :: _ => if p c then .ok (i.dropWhile p, i.takeWhile p) else .error ⟨i, .takeWhile1⟩
  | [] => .error ⟨i, .takeWhile1⟩

/-- nom `is_not(bad)`: longest non-empty run of characters not in `bad`. -/
def pIsNot (bad : List Char) : Parser Input := fun i =>
  match i with
  | c :: _ =>
    if bad.contains c then .error ⟨i, .isNot⟩
    else .ok (i.dropWhile (fun x => !(bad.contains x)), i.takeWhile (fun x => !(bad.contains x)))
  | [] => .error ⟨i, .isNot⟩

/-- nom `none_of(bad)`: one character not in `bad`. -/
def pNoneOf (bad : List Char) : Parser Char := fun i =>
  match i with
  | c :: rest => if bad.contains c then .error ⟨i, .noneOf⟩ else .ok (rest, c)
  | [] => .error ⟨i, .noneOf⟩

/-- nom `line_ending`: `"\n"` or `"\r\n"`, error kind `CrLf` otherwise. -/
def lineEnding : Parser Input := fun i =>
  match i with
  | '\n' :: rest => .ok (rest, ['\n'])
  | '\r' :: '\n' :: rest => .ok (rest, ['\r', '\n'])
  | _ => .error ⟨i, .crlf⟩

/-- nom `newline`: exactly the `'\n'` character (error kind `Char`). -/
def pnewline : Parser Char := pchar '\n'

/-- The horizontal whitespace class of nom's `space0`/`space1`. -/
def isSpaceTab (c : Char) : Bool := c = ' ' || c = '\t'

/-- nom `space0`. -/
def space0 : Parser Input := pTakeWhile isSpaceTab

/-- nom `space1` (error kind `Space`). -/
def space1 : Parser Input := fun i =>
  match i with
  | c :: _ =>
    if isSpaceTab c then .ok (i.dropWhile isSpaceTab, i.takeWhile isSpaceTab)
    else .error ⟨i, .space⟩
  | [] => .error ⟨i, .space⟩

/-- nom `not_line_ending`: consume up to (excluding) the first `'\r'` or
`'\n'`; a bare `'\r'` not followed by `'\n'` is an error (kind `Tag`). -/
def notLineEnding : Parser Input := fun i =>
  let pre := i.takeWhile (fun c => !(c = '\r' || c = '\n'))
  let rest := i.dropWhile (fun c => !(c = '\r' || c = '\n'))
  match rest with
  | '\r' :: '\n' :: _ => .ok (rest, pre)
  | '\r' :: _ => .error ⟨i, .tag⟩
  | _ => .ok (rest, pre)

/-! ### nom combinators -/

/-- nom `map`. -/
def pmap {α β : Type} (p : Parser α) (f : α → β) : Parser β := fun i =>
  match p i with
  | .error e => .error e
  | .ok (r, a) => .ok (r, f a)

/-- nom `value(v, p)`. -/
def pvalue {α β : Type} (v : β) (p : Parser α) : Parser β := pmap p (fun _ => v)

/-- nom `opt(p)`: backtracks (consumes nothing) on `Err::Error`. -/
def popt {α : Type} (p : Parser α) : Parser (Option α) := fun i =>
  match p i with
  | .ok (r, a) => .ok (r, some a)
  | .error _ => .ok (i, none)

/-- Sequencing, as used by nom `tuple`/`pair`. -/
def pseq {α β : Type} (p : Parser α) (q : Parser β) : Parser (α × β) := fun i =>
  match p i with
  | .error e => .error e
  | .ok (r, a) =>
    match q r with
    | .error e => .error e
    | .ok (r', b) => .ok (r', (a, b))

/-- nom `preceded`. -/
def ppreceded {α β : Type} (p : Parser α) (q : Parser β) : Parser β :=
  pmap (pseq p q) Prod.snd

/-- nom `terminated`. -/
def pterminated {α β : Type} (p : Parser α) (q : Parser β) : Parser α :=
  pmap (pseq p q) Prod.fst

/-- nom `delimited`. -/
def pdelimited {α β γ : Type} (a : Parser α) (b : Parser β) (c : Parser γ) : Parser β :=
  pterminated (ppreceded a b) c

/-- nom `separated_pair`. -/
def psepPair {α σ β : Type} (p : Parser α) (s : Parser σ) (q : Parser β) : Parser (α × β) :=
  pseq (pterminated p s) q

/-- nom `alt` for two alternatives: on `Err::Error` of the first, run the
second; the error of the *last* alternative is the one returned (the default
tuple error type's `append` keeps the newer error). -/
def alt2 {α : Type} (p q : Parser α) : Parser α := fun i =>
  match p i with
  | .ok r => .ok r
  | .error _ => q i

/-- nom `alt` for three alternatives. -/
def alt3 {α : Type} (p q r : Parser α) : Parser α := alt2 p (alt2 q r)

/-- nom `map_res` (with `Option` standing for the host `Result`):
errors with kind `MapRes` at the original input. -/
def pmapRes {α β : Type} (p : Parser α) (f : α → Option β) : Parser β := fun i =>
  match p i with
  | .error e => .error e
  | .ok (r, a) =>
    match f a with
    | some b => .ok (r, b)
    | none => .error ⟨i, .mapRes⟩

/-- nom `map_opt`: errors with kind `MapOpt` at the original input. -/
def pmapOpt {α β : Type} (p : Parser α) (f : α → Option β) : Parser β := fun i =>
  match p i with
  | .error e => .error e
  | .ok (r, a) =>
    match f a with
    | some b => .ok (r, b)
    | none => .error ⟨i, .mapOpt⟩

/-- Loop body of nom `fold_many0`, with explicit fuel.  Mirrors nom's
behavior: stop successfully when the inner parser errors, and fail with kind
`Many0` if an iteration consumes nothing.  Fuel exhaustion (unreachable when
`fuel > i.length`, since every accepted iteration consumes) also reports
`Many0`. -/
def foldMany0Go {α β : Type} (p : Parser α) (f : β → α → β) :
    Nat → β → Input → PResult β
  | 0, _, i => .error ⟨i, .many0⟩
  | fuel + 1, acc, i =>
    match p i with
    | .error _ => .ok (i, acc)
    | .ok (r, a) =>
      if r.length < i.length then foldMany0Go p f fuel (f acc a) r
      else .error ⟨i, .many0⟩

/-- nom `fold_many0(p, init, f)`. -/
def pfoldMany0 {α β : Type} (p : Parser α) (init : β) (f : β → α → β) : Parser β :=
  fun i => foldMany0Go p f (i.length + 1) init i

/-- Loop of nom `separated_list` after the first element, with explicit fuel.
When the separator succeeds but the element parser then errors, the list ends
*before* the separator (this is what tolerates one trailing comma in the label
grammar).  Non-consuming iterations fail with kind `SeparatedList`. -/
def sepListGo {σ α : Type} (sep : Parser σ) (p : Parser α) :
    Nat → List α → Input → PResult (List α)
  | 0, _, i => .error ⟨i, .sepList⟩
  | fuel + 1, acc, i =>
    match sep i with
    | .error _ => .ok (i, acc)
    | .ok (i1, _) =>
      if i1.length = i.length then .error ⟨i1, .sepList⟩
      else
        match p i1 with
        | .error _ => .ok (i, acc)
        | .ok (i2, a) =>
          if i2.length < i.length then sepListGo sep p fuel (acc ++ [a]) i2
          else .error ⟨i2, .sepList⟩

/-- nom `separated_list(sep, p)`: possibly empty list of `p` separated by `sep`. -/
def separatedList {σ α : Type} (sep : Parser σ) (p : Parser α) : Parser (List α) := fun i =>
  match p i with
  | .error _ => .ok (i, [])
  | .ok (i1, a) =>
    if i1.length < i.length then sepListGo sep p (i.length + 1) [a] i1
    else .error ⟨i1, .sepList⟩

/-! ### src/parser/common.rs -/

/-- Rust `char::is_alphabetic` (the Unicode `Alphabetic` property).  The model
is exact on every code point below `0x250`: ASCII letters, the Latin-1
letters `ª µ º` and `À`–`ÿ` except `×`/`÷`, and the Latin Extended-A/B blocks.
Code points `≥ 0x250` are conservatively classified as non-alphabetic (the
full Unicode table is not reproduced; no theorem below depends on them). -/
def rustIsAlphabetic (c : Char) : Bool :=
  (('a' ≤ c && c ≤ 'z') || ('A' ≤ c && c ≤ 'Z'))
  || (0xC0 ≤ c.toNat && c.toNat ≤ 0x24F && c.toNat ≠ 0xD7 && c.toNat ≠ 0xF7)
  || c.toNat = 0xAA || c.toNat = 0xB5 || c.toNat = 0xBA

/-- Rust `char::is_alphanumeric` = `Alphabetic ∪ Numeric`; same modelling
caveat as `rustIsAlphabetic` (Latin-1 numeric code points are `² ³ ¹ ¼ ½ ¾`). -/
def rustIsAlphanumeric (c : Char) : Bool :=
  rustIsAlphabetic c || c.isDigit
  || c.toNat = 0xB2 || c.toNat = 0xB3 || c.toNat = 0xB9
  || c.toNat = 0xBC || c.toNat = 0xBD || c.toNat = 0xBE

/-- `is_simple` from src/parser/common.rs. -/
def is_simple (x : Char) : Bool := rustIsAlphabetic x || x = '_' || x = ':'

/-- `token_parser` from src/parser/common.rs:
`tuple((take_while1(is_simple), take_while(|x| is_simple(x) || x.is_alphanumeric())))`,
returning the concatenation of the two runs as a `String`. -/
def tokenParser : Parser String :=
  pmap (pseq (pTakeWhile1 is_simple)
             (pTakeWhile (fun x => is_simple x || rustIsAlphanumeric x)))
       (fun sc => String.mk (sc.1 ++ sc.2))

/-- `empty_line_parser` from src/parser/common.rs:
`map(terminated(take_while(|c| c == ' ' || c == '\t'), line_ending), |_| ())`. -/
def emptyLineParser : Parser Unit :=
  pvalue () (pterminated (pTakeWhile (fun c => c = ' ' || c = '\t')) lineEnding)

/-! ### Host-language numeric literal parsing (`str::parse::<i64>` / `<f64>`) -/

/-- Numeric value of a run of ASCII digits. -/
def digitsToNat (l : Input) : Nat :=
  l.foldl (fun a c => a * 10 + (c.toNat - '0'.toNat)) 0

/-- Rust `str::parse::<i64>`: optional sign, one or more ASCII digits, the
whole string, and the value must fit in `i64`. -/
def rustParseI64 (s : Input) : Option Int :=
  let core : Input → Option Int := fun ds =>
    if ds ≠ [] && ds.all Char.isDigit then some (digitsToNat ds) else none
  let signed : Option Int :=
    match s with
    | '+' :: rest => core rest
    | '-' :: rest => (core rest).map Int.neg
    | _ => core s
  match signed with
  | some v => if -(2 ^ 63) ≤ v && v < 2 ^ 63 then some v else none
  | none => none

/-- Symbolic model of Rust `f64`, carrying exactly what the claims depend on:
the NaN / ±infinity classification, and the finite value as the exact decimal
`m * 10 ^ e` denoted by the literal (IEEE rounding of finite values is not
modelled; no claim depends on it). -/
inductive F64 where
  | nan
  | inf
  | neginf
  | finite (m : Int) (e : Int)
deriving DecidableEq

/-- The IEEE `is_nan` predicate on the `F64` model. -/
def F64.isNaN : F64 → Bool
  | .nan => true
  | _ => false

/-- ASCII lower-casing, for the case-insensitive special float literals. -/
def asciiLower (c : Char) : Char :=
  if 'A' ≤ c && c ≤ 'Z' then Char.ofNat (c.toNat + 32) else c

/-- Optional exponent suffix of a float literal: `('e'|'E') Sign? Digit+`,
ending the string.  Returns the exponent value; fails on anything else. -/
def parseExpSuffix (s : Input) : Option Int :=
  match s with
  | [] => some 0
  | c :: rest =>
    if c = 'e' || c = 'E' then
      let core : Input → Option Int := fun ds =>
        if ds ≠ [] && ds.all Char.isDigit then some (digitsToNat ds) else none
      match rest with
      | '+' :: ds => core ds
      | '-' :: ds => (core ds).map Int.neg
      | ds => core ds
    else none

/-- Rust `str::parse::<f64>` on the grammar level, following the documented
`FromStr` grammar
`Float ::= Sign? ('inf' | 'infinity' | 'nan' | Number)`,
`Number ::= Digit+ '.'? Digit* Exp? | '.' Digit+ Exp?` (case-insensitive
special words).  Finite results keep the exact decimal value. -/
def rustParseF64 (s : Input) : Option F64 :=
  let number : Int → Input → Option F64 := fun sgn t =>
    let ip := t.takeWhile Char.isDigit
    let r1 := t.dropWhile Char.isDigit
    match r1 with
    | '.' :: r2 =>
      let fp := r2.takeWhile Char.isDigit
      let r3 := r2.dropWhile Char.isDigit
      if ip = [] && fp = [] then none
      else
        match parseExpSuffix r3 with
        | some ex => some (.finite (sgn * (digitsToNat (ip ++ fp) : Int)) (ex - fp.length))
        | none => none
    | _ =>
      if ip = [] then none
      else
        match parseExpSuffix r1 with
        | some ex => some (.finite (sgn * (digitsToNat ip : Int)) ex)
        | none => none
  let body : Int → Input → Option F64 := fun sgn t =>
    let low := t.map asciiLower
    if low = "inf".toList || low = "infinity".toList then
      some (if sgn = 1 then .inf else .neginf)
    else if low = "nan".toList then some .nan
    else number sgn t
  match s with
  | '+' :: rest => body 1 rest
  | '-' :: rest => body (-1) rest
  | _ => body 1 s

/-! ### src/parser/samples.rs -/

/-- `SampleEntry` from src/parser/samples.rs.  The `labels` `HashMap` is
modelled as the association list produced by `collectToMap` below (unordered
in Rust; only lookup is observable). -/
structure SampleEntry where
  name : String
  labels : List (String × String)
  value : F64
  timestamp_ms : Option Int
deriving DecidableEq

/-- `timestamp_parser`: `map_opt(is_not("\n "), |x| x.parse::<i64>().ok())`. -/
def timestampParser : Parser Int :=
  pmapOpt (pIsNot ['\n', ' ']) rustParseI64

/-- `value_parser` from src/parser/samples.rs:
`alt((value(NAN, tag("NaN")), value(INFINITY, tag("+Inf")),
value(NEG_INFINITY, tag("-Inf")), map_res(is_not("\n "), parse::<f64>)))`. -/
def valueParser : Parser F64 :=
  alt2 (pvalue F64.nan (ptag "NaN".toList))
    (alt2 (pvalue F64.inf (ptag "+Inf".toList))
      (alt2 (pvalue F64.neginf (ptag "-Inf".toList))
        (pmapRes (pIsNot ['\n', ' ']) rustParseF64)))

/-- The escaped-character alternative inside `tag_value_parser`:
`preceded(char('\\'), alt((value('\n', char('n')), value('"', char('"')),
value('\\', char('\\')))))`. -/
def escapedChar : Parser Char :=
  ppreceded (pchar '\\')
    (alt3 (pvalue '\n' (pchar 'n'))
          (pvalue '\"' (pchar '\"'))
          (pvalue '\\' (pchar '\\')))

/-- `tag_value_parser` from src/parser/samples.rs: a double-quoted string
whose body is `fold_many0` over escaped characters or any character other
than `'\n'`, `'"'`, `'\\'`. -/
def tagValueParser : Parser String :=
  pdelimited (pchar '\"')
    (pfoldMany0 (alt2 escapedChar (pNoneOf ['\n', '\"', '\\']))
      ("" : String) (fun acc c => acc.push c))
    (pchar '\"')

/-- The `collect()` of a pair list into a `HashMap`, modelled as a left fold
of insert-or-overwrite into an association list (later pairs overwrite
earlier ones, as `HashMap::insert` does). -/
def mapUpsert (m : List (String × String)) (k v : String) : List (String × String) :=
  if m.any (fun p => p.1 == k) then
    m.map (fun p => if p.1 == k then (k, v) else p)
  else m ++ [(k, v)]

/-- Fold a parsed pair list into the label mapping. -/
def collectToMap (l : List (String × String)) : List (String × String) :=
  l.foldl (fun m p => mapUpsert m p.1 p.2) []

/-- Lookup in an association-list mapping (a `HashMap` read). -/
def lookupVal (m : List (String × String)) (k : String) : Option String :=
  (m.find? (fun p => p.1 == k)).map Prod.snd

/-- One `name="value"` pair: `separated_pair(token_parser, char('='), tag_value_parser)`. -/
def pairParser : Parser (String × String) :=
  psepPair tokenParser (pchar '=') tagValueParser

/-- The `list_parser` local of `labels_parser`:
`terminated(separated_list(char(','), pair), opt(char(',')))`. -/
def labelListParser : Parser (List (String × String)) :=
  pterminated (separatedList (pchar ',') pairParser) (popt (pchar ','))

/-- `labels_parser` from src/parser/samples.rs: optional `{...}` block;
absence yields the empty mapping. -/
def labelsParser : Parser (List (String × String)) :=
  pmap (popt (pdelimited (pchar '{') (pmap labelListParser collectToMap) (pchar '}')))
       (fun v => v.getD [])

/-- `parse_sample` from src/parser/samples.rs:
`terminated(tuple((token_parser, labels_parser, preceded(space1, value_parser),
opt(preceded(space1, timestamp_parser)))), line_ending)`. -/
def parse_sample : Parser SampleEntry :=
  pmap (pterminated
          (pseq (pseq (pseq tokenParser labelsParser)
                      (ppreceded space1 valueParser))
                (popt (ppreceded space1 timestampParser)))
          lineEnding)
       (fun x => ⟨x.1.1.1, x.1.1.2, x.1.2, x.2⟩)

/-! ### src/types.rs and src/comment.rs -/

/-- `MetricType` from src/types.rs. -/
inductive MetricType where
  | Untyped | Counter | Gauge | Histogram | Summary
deriving DecidableEq

/-- `Sample` from src/types.rs. -/
structure Sample where
  labels : List (String × String)
  value : F64
  timestamp : Option Int
deriving DecidableEq

/-- `Metric` from src/types.rs. -/
structure Metric where
  name : String
  data_type : MetricType
  samples : List Sample
deriving DecidableEq

/-- `Metric::new`. -/
def Metric.new (name : String) (t : MetricType) : Metric := ⟨name, t, []⟩

/-- `Metric::push_sample`. -/
def Metric.push_sample (m : Metric) (s : Sample) : Metric :=
  ⟨m.name, m.data_type, m.samples ++ [s]⟩

/-- `CommentType` from src/comment.rs. -/
inductive CommentType where
  | Type (name : String) (t : MetricType)
  | Help (s : String)
  | Other
deriving DecidableEq

/-- The keyword alternative inside `type_parser`:
`opt(preceded(space1, alt((tag("counter"), ...))))` defaulting to `Untyped`. -/
def metricKeyword : Parser MetricType :=
  pmap (popt (ppreceded space1
         (alt2 (pvalue MetricType.Counter (ptag "counter".toList))
           (alt2 (pvalue MetricType.Gauge (ptag "gauge".toList))
             (alt2 (pvalue MetricType.Histogram (ptag "histogram".toList))
               (alt2 (pvalue MetricType.Untyped (ptag "untyped".toList))
                     (pvalue MetricType.Summary (ptag "summary".toList))))))))
       (fun x => x.getD MetricType.Untyped)

/-- `type_parser` from src/comment.rs:
`delimited(tuple((tag("#"), space1, tag("TYPE"), space1)),
tuple((token_parser, metric_parser)), tuple((space0, newline)))`. -/
def typeParser : Parser (String × MetricType) :=
  pdelimited
    (pseq (pseq (pseq (ptag "#".toList) space1) (ptag "TYPE".toList)) space1)
    (pseq tokenParser metricKeyword)
    (pseq space0 pnewline)

/-- `other_comment_parser`: `delimited(tag("#"), not_line_ending, newline)`. -/
def otherCommentParser : Parser Unit :=
  pvalue () (pdelimited (ptag "#".toList) notLineEnding pnewline)

/-- `help_parser`: `delimited(tuple((tag("#"), space1, tag("HELP"), space1)),
not_line_ending, newline)`. -/
def helpParser : Parser String :=
  pmap (pdelimited
          (pseq (pseq (pseq (ptag "#".toList) space1) (ptag "HELP".toList)) space1)
          notLineEnding
          pnewline)
       String.mk

/-- `comment_parser` from src/comment.rs: type, then help, then generic. -/
def commentParser : Parser CommentType :=
  alt3 (pmap typeParser (fun nt => CommentType.Type nt.1 nt.2))
       (pmap helpParser CommentType.Help)
       (pvalue CommentType.Other otherCommentParser)

/-! ### src/lib.rs -/

/-- `LineType` from src/lib.rs. -/
inductive LineType where
  | Empty
  | Sample (s : SampleEntry)
  | Comment (c : CommentType)
deriving DecidableEq

/-- `parse_line` from src/lib.rs: comment, then sample, then empty line. -/
def parse_line : Parser LineType :=
  alt3 (pmap commentParser LineType.Comment)
       (pmap parse_sample LineType.Sample)
       (pvalue LineType.Empty emptyLineParser)

/-- `Into<Sample> for SampleEntry` (the string copies are identities here). -/
def SampleEntry.toSample (s : SampleEntry) : Sample :=
  ⟨s.labels, s.value, s.timestamp_ms⟩

/-- `Into<Metric> for SampleEntry`: a fresh `Untyped` metric holding the one
sample. -/
def SampleEntry.toMetric (s : SampleEntry) : Metric :=
  ⟨s.name, MetricType.Untyped, [s.toSample]⟩

/-- The accumulator `HashMap<&str, Metric>`, as an association list.  Rust's
iteration order is arbitrary; it is only consumed by the final sort, whose
key (the metric name) is unique in the accumulator, so any insertion order
gives the same final sequence. -/
abbrev Acc := List (String × Metric)

/-- `HashMap::get` by key. -/
def accGet (acc : Acc) (k : String) : Option Metric :=
  (acc.find? (fun p => p.1 == k)).map Prod.snd

/-- In-place mutation of the bucket at key `k` (`get_mut` + update). -/
def accSet (acc : Acc) (k : String) (f : Metric → Metric) : Acc :=
  acc.map (fun p => if p.1 == k then (p.1, f p.2) else p)

/-- `Metric::append_type_def` from src/lib.rs: overwrite `data_type` only.
(The source first asserts that the declaration's name equals the bucket's
name; the aggregator only ever calls it on the bucket found at that exact
name, and key/name coherence is proved below, so the assertion never fires.) -/
def Metric.append_type_def (m : Metric) (t : MetricType) : Metric :=
  ⟨m.name, t, m.samples⟩

/-- `add_comment` from src/lib.rs: only `# TYPE` comments touch the map. -/
def add_comment (acc : Acc) (c : CommentType) : Acc :=
  match c with
  | .Type s t =>
    if (accGet acc s).isSome then accSet acc s (fun m => m.append_type_def t)
    else acc ++ [(s, Metric.new s t)]
  | _ => acc

/-- `add_sample` from src/lib.rs (`append_sample_entry` has the same
assertion caveat as `append_type_def`). -/
def add_sample (acc : Acc) (s : SampleEntry) : Acc :=
  if (accGet acc s.name).isSome then accSet acc s.name (fun m => m.push_sample s.toSample)
  else acc ++ [(s.name, s.toMetric)]

/-- One step of the aggregation loop in `parse_complete`. -/
def add_line (acc : Acc) (l : LineType) : Acc :=
  match l with
  | .Comment c => add_comment acc c
  | .Sample s => add_sample acc s
  | .Empty => acc

/-- The fold of `parse_complete` over the classified lines. -/
def aggregate (ls : List LineType) : Acc := ls.foldl add_line []

/-- `InputIter` from src/lib.rs, with fuel: classify lines until the buffer
is empty, stopping at the first error.  `fuel = input length` always
suffices since every classified line consumes at least its terminator
(proved below); the out-of-fuel branch is unreachable. -/
def parseLinesFuel : Nat → Input → Except PError (List LineType)
  | _, [] => .ok []
  | 0, c :: rest => .error ⟨c :: rest, .many0⟩
  | fuel + 1, c :: rest =>
    match parse_line (c :: rest) with
    | .error e => .error e
    | .ok (r, l) =>
      match parseLinesFuel fuel r with
      | .error e => .error e
      | .ok ls => .ok (l :: ls)

/-- The whole classified-line sequence of an input, or the first error. -/
def parseLines (i : Input) : Except PError (List LineType) :=
  parseLinesFuel i.length i

/-- Rust `str::cmp` as a `≤` test: byte-wise lexicographic comparison of the
UTF-8 encodings, which coincides with code-point lexicographic order. -/
def lexLe : List Char → List Char → Bool
  | [], _ => true
  | _ :: _, [] => false
  | a :: as, b :: bs => if a < b then true else if b < a then false else lexLe as bs

/-- The order `parse_complete` sorts by: `a.name.cmp(&b.name)` ascending. -/
def nameLe (a b : Metric) : Prop := lexLe a.name.data b.name.data = true

instance : DecidableRel nameLe := fun a b => by unfold nameLe; infer_instance

/-- The final sort of `parse_complete`:
`res.sort_unstable_by(|a, b| a.name.cmp(&b.name))`.  Rust's unstable sort is
modelled by insertion sort: the sort key is unique over the accumulator
(proved below), so every comparison sort produces the same sequence. -/
def finalize (acc : Acc) : List Metric :=
  List.insertionSort nameLe (acc.map Prod.snd)

/-- `parse_complete` from src/lib.rs.  The source interleaves classification
and aggregation in one loop that aborts on the first error and only then
drains and sorts; since aggregation is pure and an error returns nothing,
this is extensionally the same as classifying all lines first. -/
def parse_complete (i : Input) : Except PError (List Metric) :=
  match parseLines i with
  | .error e => .error e
  | .ok ls => .ok (finalize (aggregate ls))

/-! ### Specification-side observations on the classified-line sequence -/

/-- Whether a metric name is *mentioned* in a classified-line sequence, in
the spec's sense ("a Metric is created lazily on first mention (either a
sample or a type declaration) of its name"): `# HELP` and generic comments
mention nothing. -/
def mentions (ls : List LineType) (n : String) : Bool :=
  ls.any (fun l =>
    match l with
    | .Sample s => s.name == n
    | .Comment (.Type m _) => m == n
    | _ => false)

/-- All `# TYPE` declarations for a given name, in input order. -/
def typeDecls (ls : List LineType) (n : String) : List MetricType :=
  ls.filterMap (fun l =>
    match l with
    | .Comment (.Type m t) => if m == n then some t else none
    | _ => none)

/-- The type of the last `# TYPE` declaration for a name, defaulting to
`Untyped` when there is none. -/
def lastTypeFor (ls : List LineType) (n : String) : MetricType :=
  ((typeDecls ls n).getLast?).getD MetricType.Untyped

/-- The samples of a given metric name, in input order. -/
def samplesFor (ls : List LineType) (n : String) : List Sample :=
  ls.filterMap (fun l =>
    match l with
    | .Sample s => if s.name == n then some s.toSample else none
    | _ => none)

/-- Modelled from the spec: the head character class of the documented token
regex `[A-Za-z_:]` (claim C4 compares the code against this). -/
def specTokenHead (c : Char) : Bool :=
  ('A' ≤ c && c ≤ 'Z') || ('a' ≤ c && c ≤ 'z') || c = '_' || c = ':'

/-- Modelled from the spec (claim C6 wording): "the run of non-whitespace,
non-newline characters at the head of the input".  A newline is whitespace,
so the run is the maximal non-whitespace prefix; `Char.isWhitespace` covers
space, tab, carriage return and line feed, agreeing with Rust
`char::is_whitespace` on these inputs. -/
def claimValueRun (i : Input) : Input := i.takeWhile (fun c => !c.isWhitespace)

/-- The run actually scanned by `value_parser`'s fallback branch:
`is_not("\n ")` stops only at a space or a line feed. -/
def codeValueRun (i : Input) : Input := i.takeWhile (fun c => !(['\n', ' '].contains c))

/-- Key/name coherence of the accumulator: every bucket's metric carries the
name it is keyed by (this is the invariant behind the source's
`assert_eq!(s.name, self.name)` checks). -/
def accCoherent (acc : Acc) : Prop := ∀ p ∈ acc, (Prod.snd p).name = p.1

/-- The states the input driver passes through: `Reaches i r` holds when the
driver, started on `i`, classifies zero or more complete lines and is left
with remainder `r`.  (`parse_line` fails on empty input, so a `step` source
is never empty.) -/
inductive Reaches : Input → Input → Prop where
  | refl (i : Input) : Reaches i i
  | step {i r2 r : Input} {l : LineType}
      (h : parse_line i = .ok (r2, l)) (hr : Reaches r2 r) : Reaches i r

/-! ## Proof layer -/

/-! ### The byte/lexicographic order used by the finalizer -/

theorem lexLe_refl (l : List Char) : lexLe l l = true := by
  induction l with
  | nil => rfl
  | cons a as ih => simp [lexLe, lt_irrefl, ih]

theorem lexLe_total (a b : List Char) : lexLe a b = true ∨ lexLe b a = true := by
  induction a generalizing b with
  | nil => left; rfl
  | cons x xs ih =>
    cases b with
    | nil => right; rfl
    | cons y ys =>
      rcases lt_trichotomy x y with h | h | h
      · left; simp [lexLe, h]
      · subst h
        rcases ih ys with h2 | h2
        · left; simp [lexLe, lt_irrefl, h2]
        · right; simp [lexLe, lt_irrefl, h2]
      · right; simp [lexLe, h]

theorem lexLe_trans : ∀ {a b c : List Char},
    lexLe a b = true → lexLe b c = true → lexLe a c = true := by
  intro a
  induction a with
  | nil => intro b c _ _; rfl
  | cons x xs ih =>
    intro b c hab hbc
    cases b with
    | nil => simp [lexLe] at hab
    | cons y ys =>
      cases c with
      | nil => simp [lexLe] at hbc
      | cons z zs =>
        rcases lt_trichotomy x y with hxy | hxy | hxy
        · rcases lt_trichotomy y z with hyz | hyz | hyz
          · simp [lexLe, lt_trans hxy hyz]
          · subst hyz; simp [lexLe, hxy]
          · simp [lexLe, hyz, asymm hyz] at hbc
        · subst hxy
          rcases lt_trichotomy x z with hyz | hyz | hyz
          · simp [lexLe, hyz]
          · subst hyz
            simp only [lexLe, lt_irrefl, if_false] at hab hbc ⊢
            exact ih hab hbc
          · simp [lexLe, hyz, asymm hyz] at hbc
        · simp [lexLe, hxy, asymm hxy] at hab

theorem lexLe_antisymm : ∀ {a b : List Char},
    lexLe a b = true → lexLe b a = true → a = b := by
  intro a
  induction a with
  | nil =>
    intro b _ hba
    cases b with
    | nil => rfl
    | cons y ys => simp [lexLe] at hba
  | cons x xs ih =>
    intro b hab hba
    cases b with
    | nil => simp [lexLe] at hab
    | cons y ys =>
      rcases lt_trichotomy x y with hxy | hxy | hxy
      · simp [lexLe, hxy, asymm hxy] at hba
      · subst hxy
        simp only [lexLe, lt_irrefl, if_false] at hab hba
        exact congrArg (x :: ·) (ih hab hba)
      · simp [lexLe, hxy, asymm hxy] at hab

theorem sorted_finalize (acc : Acc) : List.Pairwise nameLe (finalize acc) := by
  haveI : IsTotal Metric nameLe := ⟨fun a b => lexLe_total a.name.data b.name.data⟩
  haveI : IsTrans Metric nameLe := ⟨fun _ _ _ => lexLe_trans⟩
  exact List.sorted_insertionSort nameLe (acc.map Prod.snd)

theorem perm_finalize (acc : Acc) : (finalize acc).Perm (acc.map Prod.snd) :=
  List.perm_insertionSort nameLe (acc.map Prod.snd)

/-! ### The label mapping: insert-or-overwrite folding -/

theorem lookupVal_map_overwrite_eq (m : List (String × String)) (k v : String)
    (h : m.any (fun p => p.1 == k) = true) :
    lookupVal (m.map (fun p => if p.1 == k then (k, v) else p)) k = some v := by
  induction m with
  | nil => simp at h
  | cons a t ih =>
    by_cases hk : a.1 == k
    · simp [lookupVal, List.find?, hk]
    · have h' : t.any (fun p => p.1 == k) = true := by
        simpa [List.any_cons, hk] using h
      simpa [lookupVal, List.find?, hk] using ih h'

theorem lookupVal_map_overwrite_ne (m : List (String × String)) (k v k' : String)
    (h : k' ≠ k) :
    lookupVal (m.map (fun p => if p.1 == k then (k, v) else p)) k' = lookupVal m k' := by
  induction m with
  | nil => rfl
  | cons a t ih =>
    by_cases hk : a.1 == k
    · have ha : a.1 = k := by simpa using hk
      have hne : (k == k') = false := beq_eq_false_iff_ne.mpr (Ne.symm h)
      have hne2 : (a.1 == k') = false := by
        rw [ha]; exact hne
      simpa [lookupVal, List.find?, hk, hne, hne2] using ih
    · by_cases hk' : a.1 == k'
      · simp [lookupVal, List.find?, hk, hk']
      · simpa [lookupVal, List.find?, hk, hk'] using ih

theorem lookupVal_append_one (m : List (String × String)) (k v k' : String) :
    lookupVal (m ++ [(k, v)]) k'
      = match lookupVal m k' with
        | some w => some w
        | none => if k' = k then some v else none := by
  induction m with
  | nil =>
    by_cases h : k' = k
    · simp [lookupVal, List.find?, h]
    · have hne : (k == k') = false := beq_eq_false_iff_ne.mpr (Ne.symm h)
      simp [lookupVal, List.find?, hne, h]
  | cons a t ih =>
    by_cases hk' : a.1 == k'
    · simp [lookupVal, List.find?, hk']
    · simpa [lookupVal, List.find?, hk'] using ih

theorem lookupVal_mapUpsert (m : List (String × String)) (k v k' : String) :
    lookupVal (mapUpsert m k v) k' = if k' = k then some v else lookupVal m k' := by
  unfold mapUpsert
  by_cases hany : m.any (fun p => p.1 == k) = true
  · rw [if_pos hany]
    by_cases hk : k' = k
    · subst hk
      rw [if_pos rfl]
      exact lookupVal_map_overwrite_eq m k' v hany
    · rw [if_neg hk]
      exact lookupVal_map_overwrite_ne m k v k' hk
  · rw [if_neg hany, lookupVal_append_one]
    by_cases hk : k' = k
    · subst hk
      have hnone : lookupVal m k' = none := by
        unfold lookupVal
        rw [List.find?_eq_none.mpr]
        · rfl
        · intro p hp hbeq
          exact hany (List.any_eq_true.mpr ⟨p, hp, hbeq⟩)
      rw [hnone]
    · simp only [if_neg hk]
      cases hv : lookupVal m k' <;> rfl

theorem keys_mapUpsert_of_any (m : List (String × String)) (k v : String)
    (h : m.any (fun p => p.1 == k) = true) :
    (mapUpsert m k v).map Prod.fst = m.map Prod.fst := by
  unfold mapUpsert
  rw [if_pos h, List.map_map]
  refine List.map_congr_left (fun p _ => ?_)
  by_cases hk : p.1 == k
  · have : p.1 = k := by simpa using hk
    simp [Function.comp, hk, this]
  · simp [Function.comp, hk]

theorem keys_mapUpsert_of_not (m : List (String × String)) (k v : String)
    (h : ¬ m.any (fun p => p.1 == k) = true) :
    (mapUpsert m k v).map Prod.fst = m.map Prod.fst ++ [k] := by
  unfold mapUpsert
  rw [if_neg h]
  simp

theorem nodup_keys_mapUpsert (m : List (String × String)) (k v : String)
    (h : (m.map Prod.fst).Nodup) : ((mapUpsert m k v).map Prod.fst).Nodup := by
  by_cases hany : m.any (fun p => p.1 == k) = true
  · rw [keys_mapUpsert_of_any m k v hany]; exact h
  · rw [keys_mapUpsert_of_not m k v hany]
    have hk : k ∉ m.map Prod.fst := by
      intro hmem
      rcases List.mem_map.mp hmem with ⟨p, hp, hfst⟩
      exact hany (List.any_eq_true.mpr ⟨p, hp, by simp [hfst]⟩)
    simp [List.nodup_append, h, hk]

theorem getLast?_cons_of_ne {α : Type} (a : α) (l : List α) (h : l ≠ []) :
    (a :: l).getLast? = l.getLast? := by
  cases l with
  | nil => exact absurd rfl h
  | cons b t => exact List.getLast?_cons_cons

theorem lookupVal_foldl_upsert (l : List (String × String)) :
    ∀ (m : List (String × String)) (k : String),
      lookupVal (l.foldl (fun acc p => mapUpsert acc p.1 p.2) m) k
        = match ((l.filter (fun p => p.1 == k)).getLast?) with
          | some q => some q.2
          | none => lookupVal m k := by
  induction l with
  | nil => intro m k; rfl
  | cons p t ih =>
    intro m k
    rw [List.foldl_cons, ih]
    by_cases hk : (p.1 == k) = true
    · have hfil : (p :: t).filter (fun q => q.1 == k) = p :: t.filter (fun q => q.1 == k) := by
        simp [List.filter_cons, hk]
      rw [hfil]
      cases hlast : (t.filter (fun q => q.1 == k)).getLast? with
      | some q =>
        have hne : t.filter (fun q => q.1 == k) ≠ [] := by
          intro hnil; rw [hnil] at hlast; simp at hlast
        rw [getLast?_cons_of_ne _ _ hne, hlast]
      | none =>
        have hnil : t.filter (fun q => q.1 == k) = [] :=
          List.getLast?_eq_none_iff.mp hlast
        have hkk : k = p.1 := (beq_iff_eq.mp hk).symm
        rw [hnil]
        simp [lookupVal_mapUpsert, hkk]
    · have hfil : (p :: t).filter (fun q => q.1 == k) = t.filter (fun q => q.1 == k) := by
        simp [List.filter_cons, hk]
      rw [hfil]
      cases hlast : (t.filter (fun q => q.1 == k)).getLast? with
      | some q => rfl
      | none =>
        have hkk : ¬ k = p.1 := by
          intro hkp
          exact hk (by simp [hkp])
        simp [lookupVal_mapUpsert, hkk]

theorem lookupVal_collectToMap (l : List (String × String)) (k : String) :
    lookupVal (collectToMap l) k
      = ((l.filter (fun p => p.1 == k)).getLast?).map Prod.snd := by
  unfold collectToMap
  rw [lookupVal_foldl_upsert]
  cases hlast : (l.filter (fun p => p.1 == k)).getLast? with
  | some q => simp
  | none => simp [lookupVal]

theorem nodup_keys_collectToMap (l : List (String × String)) :
    ((collectToMap l).map Prod.fst).Nodup := by
  unfold collectToMap
  suffices h : ∀ m : List (String × String), (m.map Prod.fst).Nodup →
      ((l.foldl (fun acc p => mapUpsert acc p.1 p.2) m).map Prod.fst).Nodup by
    exact h [] (by simp)
  induction l with
  | nil => intro m hm; exact hm
  | cons p t ih =>
    intro m hm
    rw [List.foldl_cons]
    exact ih _ (nodup_keys_mapUpsert m p.1 p.2 hm)

/-! ### Accumulator lemmas -/

theorem accGet_accSet_eq (acc : Acc) (k : String) (f : Metric → Metric) :
    accGet (accSet acc k f) k = (accGet acc k).map f := by
  induction acc with
  | nil => rfl
  | cons a t ih =>
    by_cases hk : a.1 == k
    · simp [accGet, accSet, List.find?, hk]
    · simpa [accGet, accSet, List.find?, hk] using ih

theorem accGet_accSet_ne (acc : Acc) (k : String) (f : Metric → Metric) (k' : String)
    (h : k' ≠ k) : accGet (accSet acc k f) k' = accGet acc k' := by
  induction acc with
  | nil => rfl
  | cons a t ih =>
    by_cases hk' : a.1 == k'
    · have hne : (a.1 == k) = false := by
        refine beq_eq_false_iff_ne.mpr ?_
        intro hak
        exact h (by rw [← beq_iff_eq.mp hk', hak])
      simp [accGet, accSet, List.find?, hk', hne]
    · by_cases hk : a.1 == k
      · simpa [accGet, accSet, List.find?, hk, hk'] using ih
      · simpa [accGet, accSet, List.find?, hk, hk'] using ih

theorem keys_accSet (acc : Acc) (k : String) (f : Metric → Metric) :
    (accSet acc k f).map Prod.fst = acc.map Prod.fst := by
  unfold accSet
  rw [List.map_map]
  refine List.map_congr_left (fun p _ => ?_)
  by_cases hk : p.1 == k <;> simp [Function.comp, hk]

theorem accGet_append_one (acc : Acc) (k : String) (v : Metric) (k' : String) :
    accGet (acc ++ [(k, v)]) k'
      = match accGet acc k' with
        | some w => some w
        | none => if k' = k then some v else none := by
  induction acc with
  | nil =>
    by_cases h : k' = k
    · simp [accGet, List.find?, h]
    · have hne : (k == k') = false := beq_eq_false_iff_ne.mpr (Ne.symm h)
      simp [accGet, List.find?, hne, h]
  | cons a t ih =>
    by_cases hk' : a.1 == k'
    · simp [accGet, List.find?, hk']
    · simpa [accGet, List.find?, hk'] using ih

theorem accGet_eq_none_iff (acc : Acc) (k : String) :
    accGet acc k = none ↔ k ∉ acc.map Prod.fst := by
  unfold accGet
  constructor
  · intro h hmem
    rcases List.mem_map.mp hmem with ⟨p, hp, hfst⟩
    rcases Option.map_eq_none.mp h with hfind
    have := List.find?_eq_none.mp hfind p hp
    simp [hfst] at this
  · intro h
    rw [List.find?_eq_none.mpr]
    · rfl
    · intro p hp hbeq
      exact h (List.mem_map.mpr ⟨p, hp, beq_iff_eq.mp hbeq⟩)

theorem accGet_isSome_iff (acc : Acc) (k : String) :
    (accGet acc k).isSome = true ↔ k ∈ acc.map Prod.fst := by
  rw [← Decidable.not_iff_not, Option.not_isSome_iff_eq_none, accGet_eq_none_iff]

theorem accGet_of_mem_nodup (acc : Acc) (k : String) (m : Metric)
    (hmem : (k, m) ∈ acc) (hnd : (acc.map Prod.fst).Nodup) : accGet acc k = some m := by
  induction acc with
  | nil => simp at hmem
  | cons a t ih =>
    rcases List.mem_cons.mp hmem with heq | hmem'
    · subst heq
      simp [accGet, List.find?]
    · have hk : (a.1 == k) = false := by
        refine beq_eq_false_iff_ne.mpr ?_
        intro hak
        have : k ∈ t.map Prod.fst := List.mem_map.mpr ⟨(k, m), hmem', rfl⟩
        rw [← hak] at this
        exact (List.nodup_cons.mp (by simpa using hnd)).1 this
      have ht : (t.map Prod.fst).Nodup := (List.nodup_cons.mp (by simpa using hnd)).2
      simpa [accGet, List.find?, hk] using ih hmem' ht

/-! ### Aggregation: the accumulator is pointwise characterized by the lines -/

theorem aggregate_append_one (ls : List LineType) (l : LineType) :
    aggregate (ls ++ [l]) = add_line (aggregate ls) l := by
  simp [aggregate, List.foldl_append]

theorem mentions_append_one (ls : List LineType) (l : LineType) (n : String) :
    mentions (ls ++ [l]) n
      = (mentions ls n
         || match l with
            | .Sample s => s.name == n
            | .Comment (.Type m _) => m == n
            | _ => false) := by
  simp [mentions, List.any_append]

theorem typeDecls_append_one (ls : List LineType) (l : LineType) (n : String) :
    typeDecls (ls ++ [l]) n
      = typeDecls ls n
        ++ (match l with
            | .Comment (.Type m t) => if m == n then [t] else []
            | _ => []) := by
  unfold typeDecls
  rw [List.filterMap_append]
  congr 1
  cases l with
  | Empty => simp [List.filterMap]
  | Sample s => simp [List.filterMap]
  | Comment c =>
    cases c with
    | «Type» m t => by_cases h : m == n <;> simp [List.filterMap, h]
    | Help s => simp [List.filterMap]
    | Other => simp [List.filterMap]

theorem samplesFor_append_one (ls : List LineType) (l : LineType) (n : String) :
    samplesFor (ls ++ [l]) n
      = samplesFor ls n
        ++ (match l with
            | .Sample s => if s.name == n then [s.toSample] else []
            | _ => []) := by
  unfold samplesFor
  rw [List.filterMap_append]
  congr 1
  cases l with
  | Empty => simp [List.filterMap]
  | Sample s => by_cases h : s.name == n <;> simp [List.filterMap, h]
  | Comment c => cases c <;> simp [List.filterMap]

theorem typeDecls_nil_of_not_mentions (ls : List LineType) (n : String)
    (h : mentions ls n = false) : typeDecls ls n = [] := by
  induction ls with
  | nil => rfl
  | cons l t ih =>
    rw [mentions, List.any_cons, Bool.or_eq_false_iff] at h
    have ht := ih (by rw [mentions]; exact h.2)
    cases l with
    | Empty => simpa [typeDecls, List.filterMap] using ht
    | Sample s => simpa [typeDecls, List.filterMap] using ht
    | Comment c =>
      cases c with
      | «Type» m tp =>
        have hm : (m == n) = false := h.1
        simpa [typeDecls, List.filterMap, hm] using ht
      | Help s => simpa [typeDecls, List.filterMap] using ht
      | Other => simpa [typeDecls, List.filterMap] using ht

theorem samplesFor_nil_of_not_mentions (ls : List LineType) (n : String)
    (h : mentions ls n = false) : samplesFor ls n = [] := by
  induction ls with
  | nil => rfl
  | cons l t ih =>
    rw [mentions, List.any_cons, Bool.or_eq_false_iff] at h
    have ht := ih (by rw [mentions]; exact h.2)
    cases l with
    | Empty => simpa [samplesFor, List.filterMap] using ht
    | Sample s =>
      have hm : (s.name == n) = false := h.1
      simpa [samplesFor, List.filterMap, hm] using ht
    | Comment c => cases c <;> simpa [samplesFor, List.filterMap] using ht

theorem accCoherent_accSet (acc : Acc) (k : String) (f : Metric → Metric)
    (h : accCoherent acc) (hf : ∀ m, (f m).name = m.name) :
    accCoherent (accSet acc k f) := by
  intro p hp
  rcases List.mem_map.mp hp with ⟨q, hq, hgq⟩
  subst hgq
  by_cases hk : q.1 == k <;> simp [hk, hf, h q hq]

theorem accCoherent_append_one (acc : Acc) (k : String) (v : Metric)
    (h : accCoherent acc) (hv : v.name = k) : accCoherent (acc ++ [(k, v)]) := by
  intro p hp
  rcases List.mem_append.mp hp with hp1 | hp2
  · exact h p hp1
  · rcases List.mem_singleton.mp hp2 with rfl
    exact hv

theorem agg_coherent (ls : List LineType) : accCoherent (aggregate ls) := by
  induction ls using List.reverseRecOn with
  | nil => intro p hp; simp [aggregate] at hp
  | append_singleton t l ih =>
    rw [aggregate_append_one]
    cases l with
    | Empty => exact ih
    | Sample s =>
      simp only [add_line, add_sample]
      by_cases hs : (accGet (aggregate t) s.name).isSome = true
      · rw [if_pos hs]
        exact accCoherent_accSet _ _ _ ih (fun m => rfl)
      · rw [if_neg hs]
        exact accCoherent_append_one _ _ _ ih rfl
    | Comment c =>
      cases c with
      | «Type» s tp =>
        simp only [add_line, add_comment]
        by_cases hs : (accGet (aggregate t) s).isSome = true
        · rw [if_pos hs]
          exact accCoherent_accSet _ _ _ ih (fun m => rfl)
        · rw [if_neg hs]
          exact accCoherent_append_one _ _ _ ih rfl
      | Help s => exact ih
      | Other => exact ih

theorem agg_keys_nodup (ls : List LineType) : ((aggregate ls).map Prod.fst).Nodup := by
  induction ls using List.reverseRecOn with
  | nil => simp [aggregate]
  | append_singleton t l ih =>
    rw [aggregate_append_one]
    cases l with
    | Empty => exact ih
    | Sample s =>
      simp only [add_line, add_sample]
      by_cases hs : (accGet (aggregate t) s.name).isSome = true
      · rw [if_pos hs, keys_accSet]; exact ih
      · rw [if_neg hs]
        have hnm : s.name ∉ (aggregate t).map Prod.fst :=
          (accGet_eq_none_iff _ _).mp (Option.not_isSome_iff_eq_none.mp hs)
        simp [List.nodup_append, ih, hnm]
    | Comment c =>
      cases c with
      | «Type» s tp =>
        simp only [add_line, add_comment]
        by_cases hs : (accGet (aggregate t) s).isSome = true
        · rw [if_pos hs, keys_accSet]; exact ih
        · rw [if_neg hs]
          have hnm : s ∉ (aggregate t).map Prod.fst :=
            (accGet_eq_none_iff _ _).mp (Option.not_isSome_iff_eq_none.mp hs)
          simp [List.nodup_append, ih, hnm]
      | Help s => exact ih
      | Other => exact ih

theorem agg_mem_keys (ls : List LineType) (n : String) :
    n ∈ (aggregate ls).map Prod.fst ↔ mentions ls n = true := by
  induction ls using List.reverseRecOn with
  | nil => simp [aggregate, mentions]
  | append_singleton t l ih =>
    rw [aggregate_append_one, mentions_append_one]
    cases l with
    | Empty => simpa [add_line] using ih
    | Sample s =>
      simp only [add_line, add_sample]
      by_cases hs : (accGet (aggregate t) s.name).isSome = true
      · rw [if_pos hs, keys_accSet]
        by_cases hn : (s.name == n) = true
        · have hsn : s.name = n := beq_iff_eq.mp hn
          have hmem : s.name ∈ (aggregate t).map Prod.fst := (accGet_isSome_iff _ _).mp hs
          have hm : mentions t n = true := ih.mp (hsn ▸ hmem)
          simp [hn, hm, ih]
        · simp [hn, ih]
      · rw [if_neg hs]
        constructor
        · intro hmem
          rcases List.mem_map.mp hmem with ⟨p, hp, hfst⟩
          rcases List.mem_append.mp hp with hp1 | hp2
          · exact Bool.or_eq_true_iff.mpr
              (Or.inl (ih.mp (List.mem_map.mpr ⟨p, hp1, hfst⟩)))
          · rcases List.mem_singleton.mp hp2 with rfl
            exact Bool.or_eq_true_iff.mpr (Or.inr (by simpa using hfst))
        · intro hmem
          rcases Bool.or_eq_true_iff.mp hmem with h1 | h2
          · rcases List.mem_map.mp (ih.mpr h1) with ⟨p, hp, hfst⟩
            exact List.mem_map.mpr ⟨p, List.mem_append.mpr (Or.inl hp), hfst⟩
          · have : s.name = n := beq_iff_eq.mp h2
            exact List.mem_map.mpr
              ⟨(s.name, s.toMetric), List.mem_append.mpr (Or.inr (by simp)), this⟩
    | Comment c =>
      cases c with
      | «Type» s tp =>
        simp only [add_line, add_comment]
        by_cases hs : (accGet (aggregate t) s).isSome = true
        · rw [if_pos hs, keys_accSet]
          by_cases hn : (s == n) = true
          · have hsn : s = n := beq_iff_eq.mp hn
            have hmem : s ∈ (aggregate t).map Prod.fst := (accGet_isSome_iff _ _).mp hs
            have hm : mentions t n = true := ih.mp (hsn ▸ hmem)
            simp [hn, hm, ih]
          · simp [hn, ih]
        · rw [if_neg hs]
          constructor
          · intro hmem
            rcases List.mem_map.mp hmem with ⟨p, hp, hfst⟩
            rcases List.mem_append.mp hp with hp1 | hp2
            · exact Bool.or_eq_true_iff.mpr
                (Or.inl (ih.mp (List.mem_map.mpr ⟨p, hp1, hfst⟩)))
            · rcases List.mem_singleton.mp hp2 with rfl
              exact Bool.or_eq_true_iff.mpr (Or.inr (by simpa using hfst))
          · intro hmem
            rcases Bool.or_eq_true_iff.mp hmem with h1 | h2
            · rcases List.mem_map.mp (ih.mpr h1) with ⟨p, hp, hfst⟩
              exact List.mem_map.mpr ⟨p, List.mem_append.mpr (Or.inl hp), hfst⟩
            · have : s = n := beq_iff_eq.mp h2
              exact List.mem_map.mpr
                ⟨(s, Metric.new s tp), List.mem_append.mpr (Or.inr (by simp)), this⟩
      | Help s => simpa [add_line] using ih
      | Other => simpa [add_line] using ih

theorem agg_get_char (ls : List LineType) (n : String) :
    accGet (aggregate ls) n
      = if mentions ls n = true
        then some ⟨n, lastTypeFor ls n, samplesFor ls n⟩
        else none := by
  induction ls using List.reverseRecOn with
  | nil => simp [aggregate, mentions, accGet]
  | append_singleton t l ih =>
    rw [aggregate_append_one]
    cases l with
    | Empty =>
      simpa [add_line, mentions_append_one, lastTypeFor, typeDecls_append_one,
             samplesFor_append_one] using ih
    | Sample s =>
      simp only [add_line, add_sample]
      by_cases hsn : (s.name == n) = true
      · have hEq : s.name = n := beq_iff_eq.mp hsn
        have hMen : mentions (t ++ [LineType.Sample s]) n = true := by
          rw [mentions_append_one]; simp [hsn]
        have hTd : lastTypeFor (t ++ [LineType.Sample s]) n = lastTypeFor t n := by
          unfold lastTypeFor
          rw [typeDecls_append_one]
          simp
        have hSf : samplesFor (t ++ [LineType.Sample s]) n
            = samplesFor t n ++ [s.toSample] := by
          rw [samplesFor_append_one]; simp [hsn]
        rw [hMen, if_pos rfl, hTd, hSf]
        by_cases hs : (accGet (aggregate t) s.name).isSome = true
        · rw [if_pos hs, hEq, accGet_accSet_eq]
          have hm : mentions t n = true := by
            have := (accGet_isSome_iff _ _).mp hs
            exact (agg_mem_keys t n).mp (hEq ▸ this)
          rw [ih, if_pos hm]
          rfl
        · rw [if_neg hs, hEq, accGet_append_one]
          have hnone : accGet (aggregate t) n = none := by
            rw [← hEq]
            exact Option.not_isSome_iff_eq_none.mp hs
          have hm : mentions t n = false := by
            rcases hm : mentions t n with _ | _
            · rfl
            · rw [ih, if_pos hm] at hnone; simp at hnone
          rw [hnone]
          simp [SampleEntry.toMetric, hEq, lastTypeFor,
                typeDecls_nil_of_not_mentions t n hm,
                samplesFor_nil_of_not_mentions t n hm]
      · have hMen : mentions (t ++ [LineType.Sample s]) n = mentions t n := by
          rw [mentions_append_one]; simp [hsn]
        have hTd : lastTypeFor (t ++ [LineType.Sample s]) n = lastTypeFor t n := by
          unfold lastTypeFor
          rw [typeDecls_append_one]
          simp
        have hSf : samplesFor (t ++ [LineType.Sample s]) n = samplesFor t n := by
          rw [samplesFor_append_one]; simp [hsn]
        have hne : n ≠ s.name := fun h => hsn (by simp [h])
        rw [hMen, hTd, hSf]
        by_cases hs : (accGet (aggregate t) s.name).isSome = true
        · rw [if_pos hs, accGet_accSet_ne _ _ _ _ hne, ih]
        · rw [if_neg hs, accGet_append_one]
          cases hv : accGet (aggregate t) n with
          | some w => rw [hv] at ih; rw [← ih]
          | none =>
            rw [hv] at ih
            rw [← ih]
            simp [hne]
    | Comment c =>
      cases c with
      | «Type» s tp =>
        simp only [add_line, add_comment]
        by_cases hsn : (s == n) = true
        · have hEq : s = n := beq_iff_eq.mp hsn
          have hMen : mentions (t ++ [LineType.Comment (CommentType.Type s tp)]) n
              = true := by
            rw [mentions_append_one]; simp [hsn]
          have hTd : lastTypeFor (t ++ [LineType.Comment (CommentType.Type s tp)]) n
              = tp := by
            unfold lastTypeFor
            rw [typeDecls_append_one]
            simp [hsn, List.getLast?_concat]
          have hSf : samplesFor (t ++ [LineType.Comment (CommentType.Type s tp)]) n
              = samplesFor t n := by
            rw [samplesFor_append_one]; simp
          rw [hMen, if_pos rfl, hTd, hSf]
          by_cases hs : (accGet (aggregate t) s).isSome = true
          · rw [if_pos hs, hEq, accGet_accSet_eq]
            have hm : mentions t n = true := by
              have := (accGet_isSome_iff _ _).mp hs
              exact (agg_mem_keys t n).mp (hEq ▸ this)
            rw [ih, if_pos hm]
            rfl
          · rw [if_neg hs, hEq, accGet_append_one]
            have hnone : accGet (aggregate t) n = none := by
              rw [← hEq]
              exact Option.not_isSome_iff_eq_none.mp hs
            have hm : mentions t n = false := by
              rcases hm : mentions t n with _ | _
              · rfl
              · rw [ih, if_pos hm] at hnone; simp at hnone
            rw [hnone]
            simp [Metric.new, samplesFor_nil_of_not_mentions t n hm]
        · have hMen : mentions (t ++ [LineType.Comment (CommentType.Type s tp)]) n
              = mentions t n := by
            rw [mentions_append_one]; simp [hsn]
          have hTd : lastTypeFor (t ++ [LineType.Comment (CommentType.Type s tp)]) n
              = lastTypeFor t n := by
            unfold lastTypeFor
            rw [typeDecls_append_one]
            simp [hsn]
          have hSf : samplesFor (t ++ [LineType.Comment (CommentType.Type s tp)]) n
              = samplesFor t n := by
            rw [samplesFor_append_one]; simp
          have hne : n ≠ s := fun h => hsn (by simp [h])
          rw [hMen, hTd, hSf]
          by_cases hs : (accGet (aggregate t) s).isSome = true
          · rw [if_pos hs, accGet_accSet_ne _ _ _ _ hne, ih]
          · rw [if_neg hs, accGet_append_one]
            cases hv : accGet (aggregate t) n with
            | some w => rw [hv] at ih; rw [← ih]
            | none =>
              rw [hv] at ih
              rw [← ih]
              simp [hne]
      | Help s =>
        simpa [add_line, mentions_append_one, lastTypeFor, typeDecls_append_one,
               samplesFor_append_one] using ih
      | Other =>
        simpa [add_line, mentions_append_one, lastTypeFor, typeDecls_append_one,
               samplesFor_append_one] using ih

/-! ### From the accumulator to the final metric sequence -/

theorem mem_result_char (ls : List LineType) (m : Metric)
    (hm : m ∈ finalize (aggregate ls)) :
    mentions ls m.name = true
    ∧ m = ⟨m.name, lastTypeFor ls m.name, samplesFor ls m.name⟩ := by
  have hmem : m ∈ (aggregate ls).map Prod.snd := (perm_finalize (aggregate ls)).mem_iff.mp hm
  rcases List.mem_map.mp hmem with ⟨p, hp, hsnd⟩
  have hname : m.name = p.1 := by
    rw [← hsnd]; exact agg_coherent ls p hp
  have hget : accGet (aggregate ls) p.1 = some m := by
    have : (p.1, m) ∈ aggregate ls := by
      have hp' : p = (p.1, m) := by
        cases p; simp at hsnd ⊢; exact hsnd
      rw [← hp']; exact hp
    exact accGet_of_mem_nodup _ _ _ this (agg_keys_nodup ls)
  rw [agg_get_char] at hget
  by_cases hmen : mentions ls p.1 = true
  · rw [if_pos hmen] at hget
    have hm' := (Option.some.inj hget).symm
    constructor
    · rw [hname]; exact hmen
    · rw [hname]; exact hm'
  · rw [if_neg hmen] at hget
    exact absurd hget (by simp)

theorem result_names_eq_keys (ls : List LineType) :
    List.Perm ((finalize (aggregate ls)).map Metric.name)
      ((aggregate ls).map Prod.fst) := by
  have h1 : List.Perm ((finalize (aggregate ls)).map Metric.name)
      (((aggregate ls).map Prod.snd).map Metric.name) :=
    (perm_finalize (aggregate ls)).map Metric.name
  have h2 : ((aggregate ls).map Prod.snd).map Metric.name
      = (aggregate ls).map Prod.fst := by
    rw [List.map_map]
    exact List.map_congr_left (fun p hp => agg_coherent ls p hp)
  rw [h2] at h1
  exact h1

theorem result_names_nodup (ls : List LineType) :
    ((finalize (aggregate ls)).map Metric.name).Nodup :=
  (result_names_eq_keys ls).nodup_iff.mpr (agg_keys_nodup ls)

theorem result_mem_names (ls : List LineType) (n : String) :
    n ∈ (finalize (aggregate ls)).map Metric.name ↔ mentions ls n = true := by
  rw [(result_names_eq_keys ls).mem_iff]
  exact agg_mem_keys ls n

theorem result_pairwise_ascending (ls : List LineType) :
    (finalize (aggregate ls)).Pairwise (fun a b => nameLe a b ∧ a.name ≠ b.name) := by
  have hs : (finalize (aggregate ls)).Pairwise nameLe := sorted_finalize (aggregate ls)
  have hd : (finalize (aggregate ls)).Pairwise (fun a b => a.name ≠ b.name) :=
    List.pairwise_map.mp (result_names_nodup ls)
  exact hs.and hd

theorem parse_complete_ok_elim (i : Input) (ls : List LineType) (ms : List Metric)
    (hls : parseLines i = .ok ls) (hms : parse_complete i = .ok ms) :
    ms = finalize (aggregate ls) := by
  unfold parse_complete at hms
  rw [hls] at hms
  exact (Except.ok.inj hms).symm

/-! ### Structural facts about the parsers: the remainder is a suffix -/

theorem ptag_suffix {s : Input} {i r : Input} {a : Input}
    (h : ptag s i = .ok (r, a)) : r <:+ i := by
  unfold ptag at h
  split at h
  · obtain ⟨h1, _⟩ := Prod.mk.injEq .. ▸ Except.ok.inj h
    rw [← h1]
    exact List.drop_suffix _ _
  · exact absurd h (by simp)

theorem pchar_ok {c : Char} {i r : Input} {a : Char}
    (h : pchar c i = .ok (r, a)) : i = c :: r ∧ a = c := by
  cases i with
  | nil => exact absurd h (by simp [pchar])
  | cons c' t =>
    simp only [pchar] at h
    split at h
    · rename_i hc
      obtain ⟨h1, h2⟩ := Prod.mk.injEq .. ▸ Except.ok.inj h
      subst hc
      rw [h1]
      exact ⟨rfl, h2.symm⟩
    · exact absurd h (by simp)

theorem pchar_suffix {c : Char} {i r : Input} {a : Char}
    (h : pchar c i = .ok (r, a)) : r <:+ i := by
  rw [(pchar_ok h).1]
  exact List.suffix_cons _ _

theorem pTakeWhile_suffix {p : Char → Bool} {i r a : Input}
    (h : pTakeWhile p i = .ok (r, a)) : r <:+ i := by
  unfold pTakeWhile at h
  obtain ⟨h1, _⟩ := Prod.mk.injEq .. ▸ Except.ok.inj h
  rw [← h1]
  exact List.dropWhile_suffix _

theorem pTakeWhile1_suffix {p : Char → Bool} {i r a : Input}
    (h : pTakeWhile1 p i = .ok (r, a)) : r <:+ i := by
  cases i with
  | nil => exact absurd h (by simp [pTakeWhile1])
  | cons c t =>
    simp only [pTakeWhile1] at h
    split at h
    · obtain ⟨h1, _⟩ := Prod.mk.injEq .. ▸ Except.ok.inj h
      rw [← h1]
      exact List.dropWhile_suffix _
    · exact absurd h (by simp)

theorem pIsNot_suffix {bad : List Char} {i r a : Input}
    (h : pIsNot bad i = .ok (r, a)) : r <:+ i := by
  cases i with
  | nil => exact absurd h (by simp [pIsNot])
  | cons c t =>
    simp only [pIsNot] at h
    split at h
    · exact absurd h (by simp)
    · obtain ⟨h1, _⟩ := Prod.mk.injEq .. ▸ Except.ok.inj h
      rw [← h1]
      exact List.dropWhile_suffix _

theorem pNoneOf_suffix {bad : List Char} {i r : Input} {a : Char}
    (h : pNoneOf bad i = .ok (r, a)) : r <:+ i := by
  cases i with
  | nil => exact absurd h (by simp [pNoneOf])
  | cons c t =>
    simp only [pNoneOf] at h
    split at h
    · exact absurd h (by simp)
    · obtain ⟨h1, _⟩ := Prod.mk.injEq .. ▸ Except.ok.inj h
      rw [← h1]
      exact List.suffix_cons _ _

theorem lineEnding_ok {i r a : Input} (h : lineEnding i = .ok (r, a)) :
    i = '\n' :: r ∨ i = '\r' :: '\n' :: r := by
  unfold lineEnding at h
  split at h
  · obtain ⟨h1, _⟩ := Prod.mk.injEq .. ▸ Except.ok.inj h
    subst h1
    exact Or.inl rfl
  · obtain ⟨h1, _⟩ := Prod.mk.injEq .. ▸ Except.ok.inj h
    subst h1
    exact Or.inr rfl
  · exact absurd h (by simp)

theorem lineEnding_suffix {i r a : Input} (h : lineEnding i = .ok (r, a)) : r <:+ i := by
  rcases lineEnding_ok h with h1 | h1 <;> rw [h1]
  · exact List.suffix_cons _ _
  · exact (List.suffix_cons _ _).trans (List.suffix_cons _ _)

theorem lineEnding_error {i : Input} {e : PError} (h : lineEnding i = .error e) :
    e = ⟨i, .crlf⟩ := by
  unfold lineEnding at h
  split at h <;> simp_all

theorem space1_suffix {i r a : Input} (h : space1 i = .ok (r, a)) : r <:+ i := by
  cases i with
  | nil => exact absurd h (by simp [space1])
  | cons c t =>
    simp only [space1] at h
    split at h
    · obtain ⟨h1, _⟩ := Prod.mk.injEq .. ▸ Except.ok.inj h
      rw [← h1]
      exact List.dropWhile_suffix _
    · exact absurd h (by simp)

theorem notLineEnding_suffix {i r a : Input} (h : notLineEnding i = .ok (r, a)) :
    r <:+ i := by
  unfold notLineEnding at h
  dsimp only at h
  split at h
  · obtain ⟨h1, _⟩ := Prod.mk.injEq .. ▸ Except.ok.inj h
    rw [← h1]
    exact List.dropWhile_suffix _
  · exact absurd h (by simp)
  · obtain ⟨h1, _⟩ := Prod.mk.injEq .. ▸ Except.ok.inj h
    rw [← h1]
    exact List.dropWhile_suffix _

theorem pmap_suffix {α β : Type} {p : Parser α} {f : α → β} {i r : Input} {b : β}
    (hp : ∀ i r a, p i = .ok (r, a) → r <:+ i)
    (h : pmap p f i = .ok (r, b)) : r <:+ i := by
  unfold pmap at h
  cases hv : p i with
  | error e => rw [hv] at h; exact absurd h (by simp)
  | ok ra =>
    obtain ⟨r1, a1⟩ := ra
    rw [hv] at h
    dsimp only at h
    obtain ⟨h1, _⟩ := Prod.mk.injEq .. ▸ Except.ok.inj h
    rw [← h1]
    exact hp i r1 a1 hv

theorem pvalue_suffix {α β : Type} {v : β} {p : Parser α} {i r : Input} {b : β}
    (hp : ∀ i r a, p i = .ok (r, a) → r <:+ i)
    (h : pvalue v p i = .ok (r, b)) : r <:+ i :=
  pmap_suffix hp h

theorem popt_suffix {α : Type} {p : Parser α} {i r : Input} {a : Option α}
    (hp : ∀ i r a, p i = .ok (r, a) → r <:+ i)
    (h : popt p i = .ok (r, a)) : r <:+ i := by
  unfold popt at h
  cases hv : p i with
  | error e =>
    rw [hv] at h
    dsimp only at h
    obtain ⟨h1, _⟩ := Prod.mk.injEq .. ▸ Except.ok.inj h
    rw [← h1]
  | ok ra =>
    obtain ⟨r1, a1⟩ := ra
    rw [hv] at h
    dsimp only at h
    obtain ⟨h1, _⟩ := Prod.mk.injEq .. ▸ Except.ok.inj h
    rw [← h1]
    exact hp i r1 a1 hv

theorem pseq_suffix {α β : Type} {p : Parser α} {q : Parser β} {i r : Input} {ab : α × β}
    (hp : ∀ i r a, p i = .ok (r, a) → r <:+ i)
    (hq : ∀ i r a, q i = .ok (r, a) → r <:+ i)
    (h : pseq p q i = .ok (r, ab)) : r <:+ i := by
  unfold pseq at h
  cases hv : p i with
  | error e => rw [hv] at h; exact absurd h (by simp)
  | ok ra =>
    obtain ⟨r1, a1⟩ := ra
    rw [hv] at h
    dsimp only at h
    cases hw : q r1 with
    | error e => rw [hw] at h; exact absurd h (by simp)
    | ok rb =>
      obtain ⟨r2, b1⟩ := rb
      rw [hw] at h
      dsimp only at h
      obtain ⟨h1, _⟩ := Prod.mk.injEq .. ▸ Except.ok.inj h
      rw [← h1]
      exact (hq r1 r2 b1 hw).trans (hp i r1 a1 hv)

theorem ppreceded_suffix {α β : Type} {p : Parser α} {q : Parser β} {i r : Input} {b : β}
    (hp : ∀ i r a, p i = .ok (r, a) → r <:+ i)
    (hq : ∀ i r a, q i = .ok (r, a) → r <:+ i)
    (h : ppreceded p q i = .ok (r, b)) : r <:+ i :=
  pmap_suffix (fun i r a hh => pseq_suffix hp hq hh) h

theorem pterminated_suffix {α β : Type} {p : Parser α} {q : Parser β} {i r : Input} {a : α}
    (hp : ∀ i r a, p i = .ok (r, a) → r <:+ i)
    (hq : ∀ i r a, q i = .ok (r, a) → r <:+ i)
    (h : pterminated p q i = .ok (r, a)) : r <:+ i :=
  pmap_suffix (fun i r a hh => pseq_suffix hp hq hh) h

theorem alt2_suffix {α : Type} {p q : Parser α} {i r : Input} {a : α}
    (hp : ∀ i r a, p i = .ok (r, a) → r <:+ i)
    (hq : ∀ i r a, q i = .ok (r, a) → r <:+ i)
    (h : alt2 p q i = .ok (r, a)) : r <:+ i := by
  unfold alt2 at h
  cases hv : p i with
  | ok ra =>
    obtain ⟨r1, a1⟩ := ra
    rw [hv] at h
    dsimp only at h
    obtain ⟨h1, _⟩ := Prod.mk.injEq .. ▸ Except.ok.inj h
    rw [← h1]
    exact hp i r1 a1 hv
  | error e =>
    rw [hv] at h
    dsimp only at h
    exact hq i r a h

theorem pmapRes_suffix {α β : Type} {p : Parser α} {f : α → Option β} {i r : Input} {b : β}
    (hp : ∀ i r a, p i = .ok (r, a) → r <:+ i)
    (h : pmapRes p f i = .ok (r, b)) : r <:+ i := by
  unfold pmapRes at h
  cases hv : p i with
  | error e => rw [hv] at h; exact absurd h (by simp)
  | ok ra =>
    obtain ⟨r1, a1⟩ := ra
    rw [hv] at h
    dsimp only at h
    cases hw : f a1 with
    | none => rw [hw] at h; exact absurd h (by simp)
    | some b2 =>
      rw [hw] at h
      dsimp only at h
      obtain ⟨h1, _⟩ := Prod.mk.injEq .. ▸ Except.ok.inj h
      rw [← h1]
      exact hp i r1 a1 hv

theorem pmapOpt_suffix {α β : Type} {p : Parser α} {f : α → Option β} {i r : Input} {b : β}
    (hp : ∀ i r a, p i = .ok (r, a) → r <:+ i)
    (h : pmapOpt p f i = .ok (r, b)) : r <:+ i := by
  unfold pmapOpt at h
  cases hv : p i with
  | error e => rw [hv] at h; exact absurd h (by simp)
  | ok ra =>
    obtain ⟨r1, a1⟩ := ra
    rw [hv] at h
    dsimp only at h
    cases hw : f a1 with
    | none => rw [hw] at h; exact absurd h (by simp)
    | some b2 =>
      rw [hw] at h
      dsimp only at h
      obtain ⟨h1, _⟩ := Prod.mk.injEq .. ▸ Except.ok.inj h
      rw [← h1]
      exact hp i r1 a1 hv

theorem foldMany0Go_suffix {α β : Type} {p : Parser α} {f : β → α → β}
    (hp : ∀ i r a, p i = .ok (r, a) → r <:+ i) :
    ∀ (fuel : Nat) (acc : β) (i r : Input) (b : β),
      foldMany0Go p f fuel acc i = .ok (r, b) → r <:+ i := by
  intro fuel
  induction fuel with
  | zero => intro acc i r b h; exact absurd h (by simp [foldMany0Go])
  | succ fuel ih =>
    intro acc i r b h
    unfold foldMany0Go at h
    cases hv : p i with
    | error e =>
      rw [hv] at h
      dsimp only at h
      obtain ⟨h1, _⟩ := Prod.mk.injEq .. ▸ Except.ok.inj h
      rw [← h1]
    | ok ra =>
      obtain ⟨r1, a1⟩ := ra
      rw [hv] at h
      dsimp only at h
      split at h
      · exact (ih _ _ _ _ h).trans (hp i r1 a1 hv)
      · exact absurd h (by simp)

theorem pfoldMany0_suffix {α β : Type} {p : Parser α} {init : β} {f : β → α → β}
    {i r : Input} {b : β}
    (hp : ∀ i r a, p i = .ok (r, a) → r <:+ i)
    (h : pfoldMany0 p init f i = .ok (r, b)) : r <:+ i :=
  foldMany0Go_suffix hp _ _ _ _ _ h

theorem sepListGo_suffix {σ α : Type} {sep : Parser σ} {p : Parser α}
    (hsep : ∀ i r a, sep i = .ok (r, a) → r <:+ i)
    (hp : ∀ i r a, p i = .ok (r, a) → r <:+ i) :
    ∀ (fuel : Nat) (acc : List α) (i r : Input) (res : List α),
      sepListGo sep p fuel acc i = .ok (r, res) → r <:+ i := by
  intro fuel
  induction fuel with
  | zero => intro acc i r res h; exact absurd h (by simp [sepListGo])
  | succ fuel ih =>
    intro acc i r res h
    unfold sepListGo at h
    cases hv : sep i with
    | error e =>
      rw [hv] at h
      dsimp only at h
      obtain ⟨h1, _⟩ := Prod.mk.injEq .. ▸ Except.ok.inj h
      rw [← h1]
    | ok ra =>
      obtain ⟨r1, a1⟩ := ra
      rw [hv] at h
      dsimp only at h
      split at h
      · exact absurd h (by simp)
      · cases hw : p r1 with
        | error e =>
          rw [hw] at h
          dsimp only at h
          obtain ⟨h1, _⟩ := Prod.mk.injEq .. ▸ Except.ok.inj h
          rw [← h1]
        | ok rb =>
          obtain ⟨r2, b1⟩ := rb
          rw [hw] at h
          dsimp only at h
          split at h
          · exact (ih _ _ _ _ h).trans
              ((hp r1 r2 b1 hw).trans (hsep i r1 a1 hv))
          · exact absurd h (by simp)

theorem separatedList_suffix {σ α : Type} {sep : Parser σ} {p : Parser α}
    {i r : Input} {res : List α}
    (hsep : ∀ i r a, sep i = .ok (r, a) → r <:+ i)
    (hp : ∀ i r a, p i = .ok (r, a) → r <:+ i)
    (h : separatedList sep p i = .ok (r, res)) : r <:+ i := by
  unfold separatedList at h
  cases hv : p i with
  | error e =>
    rw [hv] at h
    dsimp only at h
    obtain ⟨h1, _⟩ := Prod.mk.injEq .. ▸ Except.ok.inj h
    rw [← h1]
  | ok ra =>
    obtain ⟨r1, a1⟩ := ra
    rw [hv] at h
    dsimp only at h
    split at h
    · exact (sepListGo_suffix hsep hp _ _ _ _ _ h).trans (hp i r1 a1 hv)
    · exact absurd h (by simp)

/-! ### Suffix property of the concrete grammar parsers -/

theorem tokenParser_suffix : ∀ i r a, tokenParser i = .ok (r, a) → r <:+ i :=
  fun _ _ _ h =>
    pmap_suffix
      (fun _ _ _ hh =>
        pseq_suffix (fun _ _ _ h1 => pTakeWhile1_suffix h1)
          (fun _ _ _ h2 => pTakeWhile_suffix h2) hh) h

theorem tagValueParser_suffix : ∀ i r a, tagValueParser i = .ok (r, a) → r <:+ i := by
  intro i r a h
  unfold tagValueParser pdelimited at h
  refine pterminated_suffix (fun i r a hh => ?_) (fun i r a hh => pchar_suffix hh) h
  refine ppreceded_suffix (fun i r a h1 => pchar_suffix h1) (fun i r a h2 => ?_) hh
  refine pfoldMany0_suffix (fun i r a h3 => ?_) h2
  refine alt2_suffix (fun i r a h4 => ?_) (fun i r a h5 => pNoneOf_suffix h5) h3
  unfold escapedChar at h4
  refine ppreceded_suffix (fun i r a h5 => pchar_suffix h5) (fun i r a h6 => ?_) h4
  unfold alt3 at h6
  refine alt2_suffix (fun i r a h7 => pvalue_suffix (fun i r a h8 => pchar_suffix h8) h7)
    (fun i r a h7 => ?_) h6
  refine alt2_suffix (fun i r a h8 => pvalue_suffix (fun i r a h9 => pchar_suffix h9) h8)
    (fun i r a h8 => pvalue_suffix (fun i r a h9 => pchar_suffix h9) h8) h7

theorem labelsParser_suffix : ∀ i r a, labelsParser i = .ok (r, a) → r <:+ i := by
  intro i r a h
  unfold labelsParser pdelimited at h
  refine pmap_suffix (fun i r a hh => popt_suffix (fun i r a h1 => ?_) hh) h
  refine pterminated_suffix (fun i r a h2 => ?_) (fun i r a h3 => pchar_suffix h3) h1
  refine ppreceded_suffix (fun i r a h4 => pchar_suffix h4) (fun i r a h5 => ?_) h2
  refine pmap_suffix (fun i r a h6 => ?_) h5
  unfold labelListParser at h6
  refine pterminated_suffix (fun i r a h7 => ?_)
    (fun i r a h8 => popt_suffix (fun i r a h9 => pchar_suffix h9) h8) h6
  refine separatedList_suffix (fun i r a h8 => pchar_suffix h8) (fun i r a h9 => ?_) h7
  unfold pairParser psepPair at h9
  refine pseq_suffix (fun i r a h10 => ?_) (fun i r a h11 => tagValueParser_suffix _ _ _ h11) h9
  exact pterminated_suffix (fun i r a h12 => tokenParser_suffix _ _ _ h12)
    (fun i r a h13 => pchar_suffix h13) h10

theorem valueParser_suffix : ∀ i r a, valueParser i = .ok (r, a) → r <:+ i := by
  intro i r a h
  unfold valueParser at h
  refine alt2_suffix (fun i r a h1 => pvalue_suffix (fun i r a h2 => ptag_suffix h2) h1)
    (fun i r a h1 => ?_) h
  refine alt2_suffix (fun i r a h2 => pvalue_suffix (fun i r a h3 => ptag_suffix h3) h2)
    (fun i r a h2 => ?_) h1
  refine alt2_suffix (fun i r a h3 => pvalue_suffix (fun i r a h4 => ptag_suffix h4) h3)
    (fun i r a h3 => ?_) h2
  exact pmapRes_suffix (fun i r a h4 => pIsNot_suffix h4) h3

theorem timestampParser_suffix : ∀ i r a, timestampParser i = .ok (r, a) → r <:+ i :=
  fun _ _ _ h => pmapOpt_suffix (fun _ _ _ h1 => pIsNot_suffix h1) h

/-! ### Inversion lemmas -/

theorem pmap_inv {α β : Type} {p : Parser α} {f : α → β} {i r : Input} {b : β}
    (h : pmap p f i = .ok (r, b)) : ∃ a, p i = .ok (r, a) ∧ b = f a := by
  unfold pmap at h
  cases hv : p i with
  | error e => rw [hv] at h; exact absurd h (by simp)
  | ok ra =>
    obtain ⟨r1, a1⟩ := ra
    rw [hv] at h
    dsimp only at h
    obtain ⟨h1, h2⟩ := Prod.mk.injEq .. ▸ Except.ok.inj h
    subst h1
    exact ⟨a1, rfl, h2.symm⟩

theorem pmap_error_inv {α β : Type} {p : Parser α} {f : α → β} {i : Input} {e : PError}
    (h : pmap p f i = .error e) : p i = .error e := by
  unfold pmap at h
  cases hv : p i with
  | error e' =>
    rw [hv] at h
    dsimp only at h
    rw [Except.error.inj h]
  | ok ra =>
    obtain ⟨r1, a1⟩ := ra
    rw [hv] at h
    exact absurd h (by simp)

theorem pseq_inv {α β : Type} {p : Parser α} {q : Parser β} {i r : Input} {ab : α × β}
    (h : pseq p q i = .ok (r, ab)) :
    ∃ i1, p i = .ok (i1, ab.1) ∧ q i1 = .ok (r, ab.2) := by
  unfold pseq at h
  cases hv : p i with
  | error e => rw [hv] at h; exact absurd h (by simp)
  | ok ra =>
    obtain ⟨r1, a1⟩ := ra
    rw [hv] at h
    dsimp only at h
    cases hw : q r1 with
    | error e => rw [hw] at h; exact absurd h (by simp)
    | ok rb =>
      obtain ⟨r2, b1⟩ := rb
      rw [hw] at h
      dsimp only at h
      obtain ⟨h1, h2⟩ := Prod.mk.injEq .. ▸ Except.ok.inj h
      subst h1
      rw [← h2]
      exact ⟨r1, rfl, hw⟩

theorem pterminated_inv {α β : Type} {p : Parser α} {q : Parser β} {i r : Input} {a : α}
    (h : pterminated p q i = .ok (r, a)) :
    ∃ i1 b, p i = .ok (i1, a) ∧ q i1 = .ok (r, b) := by
  obtain ⟨ab, hseq, hfst⟩ := pmap_inv h
  obtain ⟨i1, hp, hq⟩ := pseq_inv hseq
  exact ⟨i1, ab.2, by rw [hp, hfst], hq⟩

theorem alt2_cases {α : Type} {p q : Parser α} {i r : Input} {a : α}
    (h : alt2 p q i = .ok (r, a)) : p i = .ok (r, a) ∨ q i = .ok (r, a) := by
  unfold alt2 at h
  cases hv : p i with
  | ok ra =>
    rw [hv] at h
    dsimp only at h
    exact Or.inl h
  | error e =>
    rw [hv] at h
    dsimp only at h
    exact Or.inr h

theorem alt2_error_inv {α : Type} {p q : Parser α} {i : Input} {e : PError}
    (h : alt2 p q i = .error e) : q i = .error e := by
  unfold alt2 at h
  cases hv : p i with
  | ok ra => rw [hv] at h; exact absurd h (by simp)
  | error e' => rw [hv] at h; exact h

theorem pnewline_ok {i r : Input} {a : Char} (h : pnewline i = .ok (r, a)) :
    i = '\n' :: r :=
  (pchar_ok h).1

/-- Combine "the terminator's input is a suffix of the line" with "the
terminator consumed a line ending" into the line-chunk shape. -/
theorem chunk_of_suffix_lineEnding {i i1 r : Input}
    (hs : i1 <:+ i) (hl : i1 = '\n' :: r ∨ i1 = '\r' :: '\n' :: r) :
    ∃ pre, i = pre ++ '\n' :: r := by
  obtain ⟨t, ht⟩ := hs
  rcases hl with h1 | h1
  · exact ⟨t, by rw [← ht, h1]⟩
  · refine ⟨t ++ ['\r'], ?_⟩
    rw [← ht, h1]
    simp

/-! ### Every classified line ends at a consumed line feed -/

theorem emptyLineParser_chunk {i r : Input} {u : Unit}
    (h : emptyLineParser i = .ok (r, u)) : ∃ pre, i = pre ++ '\n' :: r := by
  unfold emptyLineParser at h
  obtain ⟨a0, h0, _⟩ := pmap_inv h
  obtain ⟨i1, b, hp, hq⟩ := pterminated_inv h0
  exact chunk_of_suffix_lineEnding (pTakeWhile_suffix hp) (lineEnding_ok hq)

theorem parse_sample_chunk {i r : Input} {se : SampleEntry}
    (h : parse_sample i = .ok (r, se)) : ∃ pre, i = pre ++ '\n' :: r := by
  unfold parse_sample at h
  obtain ⟨a0, h0, _⟩ := pmap_inv h
  obtain ⟨i1, b, hp, hq⟩ := pterminated_inv h0
  refine chunk_of_suffix_lineEnding ?_ (lineEnding_ok hq)
  refine pseq_suffix (fun i r a hh => ?_)
    (fun i r a hh => popt_suffix
      (fun i r a h2 => ppreceded_suffix (fun i r a h3 => space1_suffix h3)
        (fun i r a h4 => timestampParser_suffix _ _ _ h4) h2) hh) hp
  refine pseq_suffix (fun i r a h5 => ?_)
    (fun i r a h6 => ppreceded_suffix (fun i r a h7 => space1_suffix h7)
      (fun i r a h8 => valueParser_suffix _ _ _ h8) h6) hh
  exact pseq_suffix (fun i r a h9 => tokenParser_suffix _ _ _ h9)
    (fun i r a h10 => labelsParser_suffix _ _ _ h10) h5

theorem metricKeyword_suffix : ∀ i r a, metricKeyword i = .ok (r, a) → r <:+ i := by
  intro i r a h
  unfold metricKeyword at h
  refine pmap_suffix (fun i r a hh => popt_suffix (fun i r a h1 => ?_) hh) h
  refine ppreceded_suffix (fun i r a h2 => space1_suffix h2) (fun i r a h3 => ?_) h1
  refine alt2_suffix (fun i r a h4 => pvalue_suffix (fun i r a h9 => ptag_suffix h9) h4)
    (fun i r a h4 => ?_) h3
  refine alt2_suffix (fun i r a h5 => pvalue_suffix (fun i r a h9 => ptag_suffix h9) h5)
    (fun i r a h5 => ?_) h4
  refine alt2_suffix (fun i r a h6 => pvalue_suffix (fun i r a h9 => ptag_suffix h9) h6)
    (fun i r a h6 => ?_) h5
  exact alt2_suffix (fun i r a h7 => pvalue_suffix (fun i r a h9 => ptag_suffix h9) h7)
    (fun i r a h7 => pvalue_suffix (fun i r a h9 => ptag_suffix h9) h7) h6

theorem typeParser_chunk {i r : Input} {a : String × MetricType}
    (h : typeParser i = .ok (r, a)) : ∃ pre, i = pre ++ '\n' :: r := by
  unfold typeParser pdelimited at h
  obtain ⟨i1, b, hp, hq⟩ := pterminated_inv h
  obtain ⟨i2, hsp, hnl⟩ := pseq_inv hq
  have hs1 : i1 <:+ i := by
    refine ppreceded_suffix (fun i r a h1 => ?_) (fun i r a h2 => ?_) hp
    · refine pseq_suffix (fun i r a h3 => ?_) (fun i r a h4 => space1_suffix h4) h1
      refine pseq_suffix (fun i r a h5 => ?_) (fun i r a h6 => ptag_suffix h6) h3
      exact pseq_suffix (fun i r a h7 => ptag_suffix h7)
        (fun i r a h8 => space1_suffix h8) h5
    · exact pseq_suffix (fun i r a h3 => tokenParser_suffix _ _ _ h3)
        (fun i r a h4 => metricKeyword_suffix _ _ _ h4) h2
  have hs2 : i2 <:+ i1 := pTakeWhile_suffix hsp
  exact chunk_of_suffix_lineEnding (hs2.trans hs1) (Or.inl (pnewline_ok hnl))

theorem helpParser_chunk {i r : Input} {a : String}
    (h : helpParser i = .ok (r, a)) : ∃ pre, i = pre ++ '\n' :: r := by
  unfold helpParser at h
  obtain ⟨a0, h0, _⟩ := pmap_inv h
  unfold pdelimited at h0
  obtain ⟨i1, b, hp, hq⟩ := pterminated_inv h0
  have hs1 : i1 <:+ i := by
    refine ppreceded_suffix (fun i r a h1 => ?_)
      (fun i r a h2 => notLineEnding_suffix h2) hp
    refine pseq_suffix (fun i r a h3 => ?_) (fun i r a h4 => space1_suffix h4) h1
    refine pseq_suffix (fun i r a h5 => ?_) (fun i r a h6 => ptag_suffix h6) h3
    exact pseq_suffix (fun i r a h7 => ptag_suffix h7) (fun i r a h8 => space1_suffix h8) h5
  exact chunk_of_suffix_lineEnding hs1 (Or.inl (pnewline_ok hq))

theorem otherCommentParser_chunk {i r : Input} {u : Unit}
    (h : otherCommentParser i = .ok (r, u)) : ∃ pre, i = pre ++ '\n' :: r := by
  unfold otherCommentParser at h
  obtain ⟨a0, h0, _⟩ := pmap_inv h
  unfold pdelimited at h0
  obtain ⟨i1, b, hp, hq⟩ := pterminated_inv h0
  have hs1 : i1 <:+ i :=
    ppreceded_suffix (fun i r a h1 => ptag_suffix h1)
      (fun i r a h2 => notLineEnding_suffix h2) hp
  exact chunk_of_suffix_lineEnding hs1 (Or.inl (pnewline_ok hq))

theorem commentParser_chunk {i r : Input} {c : CommentType}
    (h : commentParser i = .ok (r, c)) : ∃ pre, i = pre ++ '\n' :: r := by
  unfold commentParser alt3 at h
  rcases alt2_cases h with h1 | h1
  · obtain ⟨a0, h0, _⟩ := pmap_inv h1
    exact typeParser_chunk h0
  · rcases alt2_cases h1 with h2 | h2
    · obtain ⟨a0, h0, _⟩ := pmap_inv h2
      exact helpParser_chunk h0
    · obtain ⟨a0, h0, _⟩ := pmap_inv h2
      exact otherCommentParser_chunk h0

theorem parse_line_chunk {i r : Input} {l : LineType}
    (h : parse_line i = .ok (r, l)) : ∃ pre, i = pre ++ '\n' :: r := by
  unfold parse_line alt3 at h
  rcases alt2_cases h with h1 | h1
  · obtain ⟨a0, h0, _⟩ := pmap_inv h1
    exact commentParser_chunk h0
  · rcases alt2_cases h1 with h2 | h2
    · obtain ⟨a0, h0, _⟩ := pmap_inv h2
      exact parse_sample_chunk h0
    · obtain ⟨a0, h0, _⟩ := pmap_inv h2
      exact emptyLineParser_chunk h0

theorem parse_line_progress {i r : Input} {l : LineType}
    (h : parse_line i = .ok (r, l)) : r.length < i.length := by
  obtain ⟨pre, hp⟩ := parse_line_chunk h
  subst hp
  simp [List.length_append]
  omega

/-- When all three line grammars reject, the error `parse_line` reports is the
one of the last alternative (the empty-line grammar): the failing line with
its leading spaces/tabs consumed, kind `CrLf`. -/
theorem parse_line_error {i : Input} {e : PError}
    (h : parse_line i = .error e) : e = ⟨i.dropWhile isSpaceTab, .crlf⟩ := by
  unfold parse_line alt3 at h
  have h1 := alt2_error_inv (alt2_error_inv h)
  have h2 := pmap_error_inv h1
  unfold emptyLineParser at h2
  have h3 := pmap_error_inv h2
  unfold pterminated at h3
  have h4 := pmap_error_inv h3
  unfold pseq pTakeWhile at h4
  dsimp only at h4
  cases hv : lineEnding (i.dropWhile fun c => c = ' ' || c = '\t') with
  | ok rb => rw [hv] at h4; exact absurd h4 (by simp)
  | error e' =>
    rw [hv] at h4
    dsimp only at h4
    rw [← Except.error.inj h4]
    exact lineEnding_error hv

/-! ### The input driver -/

theorem parse_line_nil : parse_line ([] : Input) = .error ⟨[], .crlf⟩ := by decide

theorem parseLinesFuel_nil (f : Nat) : parseLinesFuel f ([] : Input) = .ok [] := by
  cases f <;> rfl

theorem parseLinesFuel_zero_cons (c : Char) (t : Input) :
    parseLinesFuel 0 (c :: t) = .error ⟨c :: t, .many0⟩ := rfl

theorem parseLinesFuel_succ_cons (f : Nat) (c : Char) (t : Input) :
    parseLinesFuel (f + 1) (c :: t)
      = match parse_line (c :: t) with
        | .error e => .error e
        | .ok (r, l) =>
          match parseLinesFuel f r with
          | .error e => .error e
          | .ok ls => .ok (l :: ls) := rfl

theorem parseLinesFuel_congr :
    ∀ (f1 f2 : Nat) (i : Input), i.length ≤ f1 → i.length ≤ f2 →
      parseLinesFuel f1 i = parseLinesFuel f2 i := by
  intro f1
  induction f1 with
  | zero =>
    intro f2 i h1 _
    have : i = [] := List.length_eq_zero.mp (Nat.le_zero.mp h1)
    subst this
    cases f2 <;> rfl
  | succ f1 ih =>
    intro f2 i h1 h2
    cases i with
    | nil => cases f2 <;> rfl
    | cons c t =>
      have hf2 : ∃ f2', f2 = f2' + 1 := by
        cases f2 with
        | zero => simp at h2
        | succ n => exact ⟨n, rfl⟩
      obtain ⟨f2', rfl⟩ := hf2
      rw [parseLinesFuel_succ_cons, parseLinesFuel_succ_cons]
      cases hv : parse_line (c :: t) with
      | error e => rfl
      | ok rl =>
        obtain ⟨r, l⟩ := rl
        dsimp only
        have hlt : r.length < (c :: t).length := parse_line_progress hv
        have hr1 : r.length ≤ f1 := by
          have := Nat.lt_of_lt_of_le hlt h1
          omega
        have hr2 : r.length ≤ f2' := by
          have := Nat.lt_of_lt_of_le hlt h2
          omega
        rw [ih f2' r hr1 hr2]

theorem parseLinesFuel_eq (f : Nat) (i : Input) (h : i.length ≤ f) :
    parseLinesFuel f i = parseLines i :=
  parseLinesFuel_congr f i.length i h le_rfl

theorem parseLinesFuel_ok_last :
    ∀ (f : Nat) (i : Input) (ls : List LineType),
      parseLinesFuel f i = .ok ls → i ≠ [] → i.getLast? = some '\n' := by
  intro f
  induction f with
  | zero =>
    intro i ls h hne
    cases i with
    | nil => exact absurd rfl hne
    | cons c t =>
      rw [parseLinesFuel_zero_cons] at h
      exact absurd h (by simp)
  | succ f ih =>
    intro i ls h hne
    cases i with
    | nil => exact absurd rfl hne
    | cons c t =>
      rw [parseLinesFuel_succ_cons] at h
      cases hv : parse_line (c :: t) with
      | error e => rw [hv] at h; exact absurd h (by simp)
      | ok rl =>
        obtain ⟨r, l⟩ := rl
        rw [hv] at h
        dsimp only at h
        obtain ⟨pre, hchunk⟩ := parse_line_chunk hv
        cases hr : r with
        | nil =>
          rw [hchunk, hr]
          simp [List.getLast?_concat]
        | cons c' t' =>
          cases hw : parseLinesFuel f r with
          | error e => rw [hw] at h; exact absurd h (by simp)
          | ok ls' =>
            have hlast : r.getLast? = some '\n' := by
              refine ih r ls' hw ?_
              rw [hr]; simp
            have h1 : (pre ++ '\n' :: r).getLast? = ('\n' :: r).getLast? :=
              List.getLast?_append_of_ne_nil pre (show ('\n' :: r) ≠ [] by simp)
            have h2 : ('\n' :: r).getLast? = r.getLast? :=
              getLast?_cons_of_ne '\n' r (by simp [hr])
            rw [hchunk, h1, h2, hlast]

end PromExpo

namespace PromExpo

/-! ### Claim theorems -/

/-- C1: whenever `parse_complete` succeeds, the returned sequence is strictly
ascending by metric name under byte/lexicographic comparison (`nameLe`, plus
pairwise-distinct names), the names carry no duplicates, and they are exactly
the distinct names mentioned in the input — where, following the spec's
lifecycle clause, a name is *mentioned* by a sample line or a `# TYPE`
declaration (a `# HELP` line or generic comment creates no metric).  A
strictly sorted sequence is uniquely determined by its set of members, so
the ordering does not depend on the order in which names appeared. -/
theorem c1_sorted_one_metric_per_name (i : Input) (ls : List LineType) (ms : List Metric)
    (hls : parseLines i = .ok ls) (hms : parse_complete i = .ok ms) :
    ms.Pairwise (fun a b => nameLe a b ∧ a.name ≠ b.name)
    ∧ (ms.map Metric.name).Nodup
    ∧ (∀ n, n ∈ ms.map Metric.name ↔ mentions ls n = true) := by
  have h := parse_complete_ok_elim i ls ms hls hms
  subst h
  exact ⟨result_pairwise_ascending ls, result_names_nodup ls,
         fun n => result_mem_names ls n⟩

/-- Witness for C1 at the concrete input `"b 1\na 2\n"`: the metrics come
back in ascending name order `a`, `b` even though `b` appeared first. -/
theorem c1_witness :
    ([⟨"a", .Untyped, [⟨[], .finite 2 0, none⟩]⟩,
      ⟨"b", .Untyped, [⟨[], .finite 1 0, none⟩]⟩] : List Metric).Pairwise
        (fun a b => nameLe a b ∧ a.name ≠ b.name)
    ∧ (∀ n, n ∈ ([⟨"a", .Untyped, [⟨[], .finite 2 0, none⟩]⟩,
        ⟨"b", .Untyped, [⟨[], .finite 1 0, none⟩]⟩] : List Metric).map Metric.name
        ↔ mentions [LineType.Sample ⟨"b", [], .finite 1 0, none⟩,
                    LineType.Sample ⟨"a", [], .finite 2 0, none⟩] n = true) := by
  have h := c1_sorted_one_metric_per_name ("b 1\na 2\n".toList)
      [LineType.Sample ⟨"b", [], .finite 1 0, none⟩,
       LineType.Sample ⟨"a", [], .finite 2 0, none⟩]
      [⟨"a", .Untyped, [⟨[], .finite 2 0, none⟩]⟩,
       ⟨"b", .Untyped, [⟨[], .finite 1 0, none⟩]⟩]
      (by decide) (by decide)
  exact ⟨h.1, h.2.2⟩

/-- C2: every returned metric's `data_type` is the type of the *last*
`# TYPE` declaration for its name in the input (`lastTypeFor` takes the last
declaration and defaults to `Untyped` when there is none — in particular a
metric first seen via a sample line that never receives a declaration is
`Untyped`). -/
theorem c2_data_type_last_decl (i : Input) (ls : List LineType) (ms : List Metric)
    (m : Metric) (hls : parseLines i = .ok ls) (hms : parse_complete i = .ok ms)
    (hm : m ∈ ms) : m.data_type = lastTypeFor ls m.name := by
  have h := parse_complete_ok_elim i ls ms hls hms
  subst h
  have hc := (mem_result_char ls m hm).2
  conv_lhs => rw [hc]

/-- Witness for C2 at `"# TYPE a counter\n# TYPE a gauge\na 1\n"`: the later
`gauge` declaration wins. -/
theorem c2_witness :
    (⟨"a", .Gauge, [⟨[], .finite 1 0, none⟩]⟩ : Metric).data_type
      = lastTypeFor
          [LineType.Comment (CommentType.Type "a" .Counter),
           LineType.Comment (CommentType.Type "a" .Gauge),
           LineType.Sample ⟨"a", [], .finite 1 0, none⟩] "a" :=
  c2_data_type_last_decl ("# TYPE a counter\n# TYPE a gauge\na 1\n".toList)
    [LineType.Comment (CommentType.Type "a" .Counter),
     LineType.Comment (CommentType.Type "a" .Gauge),
     LineType.Sample ⟨"a", [], .finite 1 0, none⟩]
    [⟨"a", .Gauge, [⟨[], .finite 1 0, none⟩]⟩]
    ⟨"a", .Gauge, [⟨[], .finite 1 0, none⟩]⟩
    (by decide) (by decide) (by decide)

/-- C9: processing a `# TYPE` declaration for name `s` sets that bucket's
`data_type` (keeping its name and samples when it already exists, creating a
fresh sample-less metric otherwise) and leaves every other key's bucket
untouched; and globally, every returned metric's `samples` is exactly the
input-order sequence of that name's sample lines (`samplesFor` is an
order-preserving filter of the classified lines, so samples are never
reordered, deduplicated, or validated against `data_type`). -/
theorem c9_type_decl_frame_and_sample_order :
    (∀ (acc : Acc) (s : String) (tp : MetricType),
      accGet (add_comment acc (CommentType.Type s tp)) s
        = some (match accGet acc s with
                | some m => Metric.mk m.name tp m.samples
                | none => Metric.new s tp)
      ∧ ∀ k, k ≠ s → accGet (add_comment acc (CommentType.Type s tp)) k = accGet acc k)
    ∧ (∀ (i : Input) (ls : List LineType) (ms : List Metric) (m : Metric),
        parseLines i = .ok ls → parse_complete i = .ok ms → m ∈ ms →
        m.samples = samplesFor ls m.name) := by
  constructor
  · intro acc s tp
    constructor
    · simp only [add_comment]
      by_cases hs : (accGet acc s).isSome = true
      · rw [if_pos hs, accGet_accSet_eq]
        cases hv : accGet acc s with
        | some m => simp [Metric.append_type_def]
        | none => rw [hv] at hs; simp at hs
      · rw [if_neg hs, accGet_append_one, Option.not_isSome_iff_eq_none.mp hs]
        simp
    · intro k hk
      simp only [add_comment]
      by_cases hs : (accGet acc s).isSome = true
      · rw [if_pos hs]
        exact accGet_accSet_ne acc s _ k hk
      · rw [if_neg hs, accGet_append_one]
        cases hv : accGet acc k with
        | some w => rfl
        | none => simp [hk]
  · intro i ls ms m hls hms hm
    have h := parse_complete_ok_elim i ls ms hls hms
    subst h
    have hc := (mem_result_char ls m hm).2
    conv_lhs => rw [hc]

/-- Witness for C9: re-declaring `a` as `gauge` overwrites only its
`data_type` (samples kept), `b` is untouched, and on a concrete parse the
samples come back in input order. -/
theorem c9_witness :
    accGet (add_comment [("a", ⟨"a", .Counter, [⟨[], .finite 5 0, none⟩]⟩)]
        (CommentType.Type "a" .Gauge)) "a"
      = some ⟨"a", .Gauge, [⟨[], .finite 5 0, none⟩]⟩
    ∧ accGet (add_comment [("a", ⟨"a", .Counter, [⟨[], .finite 5 0, none⟩]⟩)]
        (CommentType.Type "a" .Gauge)) "b"
      = accGet [("a", ⟨"a", .Counter, [⟨[], .finite 5 0, none⟩]⟩)] "b"
    ∧ (⟨"a", .Counter, [⟨[], .finite 1 0, none⟩, ⟨[], .finite 2 0, none⟩]⟩ : Metric).samples
      = samplesFor
          [LineType.Comment (CommentType.Type "a" .Counter),
           LineType.Sample ⟨"a", [], .finite 1 0, none⟩,
           LineType.Sample ⟨"a", [], .finite 2 0, none⟩] "a" := by
  obtain ⟨hlocal, hglobal⟩ := c9_type_decl_frame_and_sample_order
  refine ⟨?_, ?_, ?_⟩
  · exact (hlocal [("a", ⟨"a", .Counter, [⟨[], .finite 5 0, none⟩]⟩)] "a" .Gauge).1
  · exact (hlocal [("a", ⟨"a", .Counter, [⟨[], .finite 5 0, none⟩]⟩)] "a" .Gauge).2
      "b" (by decide)
  · exact hglobal ("# TYPE a counter\na 1\na 2\n".toList)
      [LineType.Comment (CommentType.Type "a" .Counter),
       LineType.Sample ⟨"a", [], .finite 1 0, none⟩,
       LineType.Sample ⟨"a", [], .finite 2 0, none⟩]
      [⟨"a", .Counter, [⟨[], .finite 1 0, none⟩, ⟨[], .finite 2 0, none⟩]⟩]
      ⟨"a", .Counter, [⟨[], .finite 1 0, none⟩, ⟨[], .finite 2 0, none⟩]⟩
      (by decide) (by decide) (by decide)

/-- C8: whatever pair list a label block parses to, the mapping the grammar
folds it into has pairwise-distinct label names, and each name maps to the
value of the *last* (rightmost) pair carrying it. -/
theorem c8_duplicate_label_last_wins (i rest : Input) (l : List (String × String))
    (k : String) (h : labelListParser i = .ok (rest, l)) :
    pmap labelListParser collectToMap i = .ok (rest, collectToMap l)
    ∧ ((collectToMap l).map Prod.fst).Nodup
    ∧ lookupVal (collectToMap l) k
        = ((l.filter (fun p => p.1 == k)).getLast?).map Prod.snd := by
  refine ⟨?_, nodup_keys_collectToMap l, lookupVal_collectToMap l k⟩
  simp [pmap, h]

/-- Witness for C8 on the duplicate-key block `a="1",a="2"`: the value of
the second pair wins. -/
theorem c8_witness :
    pmap labelListParser collectToMap ("a=\"1\",a=\"2\"".toList ++ ['}'])
      = .ok (['}'], collectToMap [("a", "1"), ("a", "2")])
    ∧ ((collectToMap [("a", "1"), ("a", "2")]).map Prod.fst).Nodup
    ∧ lookupVal (collectToMap [("a", "1"), ("a", "2")]) "a"
        = (([("a", "1"), ("a", "2")].filter (fun p => p.1 == "a")).getLast?).map
            Prod.snd :=
  c8_duplicate_label_last_wins ("a=\"1\",a=\"2\"".toList ++ ['}']) ['}']
    [("a", "1"), ("a", "2")] "a" (by decide)

/-- The first failing line aborts the whole call with the error `parse_line`
produced there, whatever was already classified. -/
theorem reaches_error_propagates : ∀ {i r : Input}, Reaches i r → r ≠ [] →
    ∀ e, parse_line r = .error e →
      parse_complete i = .error ⟨r.dropWhile isSpaceTab, .crlf⟩ := by
  intro i r hr
  induction hr with
  | refl j =>
    intro hne e hline
    cases hj : j with
    | nil => exact absurd hj hne
    | cons c t =>
      subst hj
      have hpay := parse_line_error hline
      unfold parse_complete parseLines
      rw [show (c :: t).length = t.length + 1 from rfl, parseLinesFuel_succ_cons, hline]
      rw [hpay]
  | step h hr2 ih =>
    intro hne e hline
    rename_i i0 r2 r' l
    have hi0 : i0 ≠ [] := by
      intro hnil
      rw [hnil, parse_line_nil] at h
      exact absurd h (by simp)
    cases hi : i0 with
    | nil => exact absurd hi hi0
    | cons c t =>
      subst hi
      have hprev := ih hne e hline
      unfold parse_complete parseLines
      rw [show (c :: t).length = t.length + 1 from rfl, parseLinesFuel_succ_cons, h]
      dsimp only
      have hfuel : parseLinesFuel t.length r2 = parseLines r2 := by
        refine parseLinesFuel_eq t.length r2 ?_
        have := parse_line_progress h
        simp at this
        omega
      rw [hfuel]
      unfold parse_complete at hprev
      cases hp : parseLines r2 with
      | error e' =>
        rw [hp] at hprev
        dsimp only at hprev
        rw [Except.error.inj hprev]
      | ok ls =>
        rw [hp] at hprev
        exact absurd hprev (by simp)

/-- Counterexample to C3 as stated.  On the input `" x\n"` the (single,
whole) line fails all three grammars, so the unconsumed remainder starting at
the failing line is the whole input `" x\n"`; but the error payload is
`"x\n"`: the empty-line grammar — the last alternative tried, whose error is
the one reported — had already consumed the leading space before its
line-ending check failed.  So the payload is not the remainder starting at
the failing line. -/
theorem c3_counterexample :
    parse_complete (' ' :: 'x' :: '\n' :: []) = .error ⟨'x' :: '\n' :: [], .crlf⟩
    ∧ ('x' :: '\n' :: []) ≠ (' ' :: 'x' :: '\n' :: []) := by
  constructor
  · decide
  · decide

/-- C3 (amended): `parse_complete` either returns a complete result or the
single error of the first failing line, never partially aggregated metrics
(the return type alone forces this; the theorem pins the error down).  The
error payload is the unconsumed remainder at the point where the last-tried
(empty-line) grammar failed: the failing line with its leading spaces and
tabs consumed, with error kind `CrLf`. -/
theorem c3_fail_fast_error_payload (i r : Input) (e : PError)
    (hr : Reaches i r) (hne : r ≠ []) (hline : parse_line r = .error e) :
    e = ⟨r.dropWhile isSpaceTab, .crlf⟩
    ∧ parse_complete i = .error ⟨r.dropWhile isSpaceTab, .crlf⟩ :=
  ⟨parse_line_error hline, reaches_error_propagates hr hne e hline⟩

/-- Witness for the amended C3 at the input `" x\n"`. -/
theorem c3_witness :
    (⟨'x' :: '\n' :: [], .crlf⟩ : PError)
        = ⟨(' ' :: 'x' :: '\n' :: []).dropWhile isSpaceTab, .crlf⟩
    ∧ parse_complete (' ' :: 'x' :: '\n' :: [])
        = .error ⟨(' ' :: 'x' :: '\n' :: []).dropWhile isSpaceTab, .crlf⟩ :=
  c3_fail_fast_error_payload (' ' :: 'x' :: '\n' :: []) (' ' :: 'x' :: '\n' :: [])
    ⟨'x' :: '\n' :: [], .crlf⟩ (Reaches.refl _) (by decide) (by decide)

/-- C10: `parse_complete` on the empty string succeeds with no metrics, and
every non-empty input whose last character is not a line feed (both `"\n"`
and `"\r\n"` terminators end in one) is rejected: each of the three line
grammars only succeeds by consuming a terminating line break. -/
theorem c10_empty_ok_unterminated_errors :
    parse_complete ([] : Input) = .ok []
    ∧ ∀ i : Input, i ≠ [] → i.getLast? ≠ some '\n' → isErr (parse_complete i) = true := by
  constructor
  · rfl
  · intro i hne hlast
    cases hp : parseLines i with
    | error e => simp [parse_complete, hp, isErr]
    | ok ls => exact absurd (parseLinesFuel_ok_last i.length i ls hp hne) hlast

/-- Witness for C10: the empty input succeeds; `"a 1"` without a final line
break fails. -/
theorem c10_witness :
    parse_complete ([] : Input) = .ok []
    ∧ isErr (parse_complete ("a 1".toList)) = true := by
  obtain ⟨h1, h2⟩ := c10_empty_ok_unterminated_errors
  exact ⟨h1, h2 ("a 1".toList) (by decide) (by decide)⟩

/-! ### Evaluation helpers for semi-concrete inputs -/

theorem pseq_ok {α β : Type} {p : Parser α} {q : Parser β} {i i1 i2 : Input} {a : α} {b : β}
    (hp : p i = .ok (i1, a)) (hq : q i1 = .ok (i2, b)) :
    pseq p q i = .ok (i2, (a, b)) := by
  unfold pseq
  rw [hp]
  dsimp only
  rw [hq]

theorem pseq_err1 {α β : Type} {p : Parser α} {q : Parser β} {i : Input} {e : PError}
    (hp : p i = .error e) : pseq p q i = .error e := by
  unfold pseq
  rw [hp]

theorem pseq_err2 {α β : Type} {p : Parser α} {q : Parser β} {i i1 : Input} {a : α}
    {e : PError} (hp : p i = .ok (i1, a)) (hq : q i1 = .error e) :
    pseq p q i = .error e := by
  unfold pseq
  rw [hp]
  dsimp only
  rw [hq]

theorem pmap_ok {α β : Type} {p : Parser α} {f : α → β} {i r : Input} {a : α}
    (hp : p i = .ok (r, a)) : pmap p f i = .ok (r, f a) := by
  unfold pmap
  rw [hp]

theorem pmap_err {α β : Type} {p : Parser α} {f : α → β} {i : Input} {e : PError}
    (hp : p i = .error e) : pmap p f i = .error e := by
  unfold pmap
  rw [hp]

theorem popt_none {α : Type} {p : Parser α} {i : Input} {e : PError}
    (hp : p i = .error e) : popt p i = .ok (i, none) := by
  unfold popt
  rw [hp]

theorem popt_some {α : Type} {p : Parser α} {i r : Input} {a : α}
    (hp : p i = .ok (r, a)) : popt p i = .ok (r, some a) := by
  unfold popt
  rw [hp]

theorem alt2_first {α : Type} {p q : Parser α} {i : Input} {v : Input × α}
    (hp : p i = .ok v) : alt2 p q i = .ok v := by
  unfold alt2
  rw [hp]

theorem alt2_rest {α : Type} {p q : Parser α} {i : Input} {e : PError}
    (hp : p i = .error e) : alt2 p q i = q i := by
  unfold alt2
  rw [hp]

theorem ptag_append (s v : Input) : ptag s (s ++ v) = .ok (v, s) := by
  unfold ptag
  rw [if_pos (by exact List.isPrefixOf_iff_prefix.mpr ⟨v, rfl⟩)]
  rw [List.drop_left]

theorem ptag_tag_mismatch {s i : Input} (h : ¬ s <+: i) : ptag s i = .error ⟨i, .tag⟩ := by
  unfold ptag
  rw [if_neg (fun hc => h (List.isPrefixOf_iff_prefix.mp hc))]

theorem takeWhile_stop {p : Char → Bool} (l : List Char) (c : Char) (t : List Char)
    (hl : ∀ x ∈ l, p x = true) (hc : p c = false) :
    (l ++ c :: t).takeWhile p = l ∧ (l ++ c :: t).dropWhile p = c :: t := by
  induction l with
  | nil => simp [List.takeWhile, List.dropWhile, hc]
  | cons a l' ih =>
    have ha : p a = true := hl a (by simp)
    have ih' := ih (fun x hx => hl x (by simp [hx]))
    simp [List.takeWhile, List.dropWhile, ha, ih'.1, ih'.2]

theorem space1_stop {l : Input} {c : Char} {t : Input}
    (hl : ∀ x ∈ l, isSpaceTab x = true) (hc : isSpaceTab c = false) (hne : l ≠ []) :
    space1 (l ++ c :: t) = .ok (c :: t, l) := by
  cases l with
  | nil => exact absurd rfl hne
  | cons a l' =>
    have ha : isSpaceTab a = true := hl a (by simp)
    obtain ⟨h1, h2⟩ := takeWhile_stop (a :: l') c t hl hc
    unfold space1
    dsimp only [List.cons_append]
    rw [if_pos ha]
    rw [show (a :: (l' ++ c :: t)) = (a :: l') ++ c :: t from rfl, h1, h2]

theorem space1_fail {c : Char} {t : Input} (hc : isSpaceTab c = false) :
    space1 (c :: t) = .error ⟨c :: t, .space⟩ := by
  unfold space1
  dsimp only
  rw [if_neg (by simp [hc])]

theorem space0_stop {l : Input} {c : Char} {t : Input}
    (hl : ∀ x ∈ l, isSpaceTab x = true) (hc : isSpaceTab c = false) :
    space0 (l ++ c :: t) = .ok (c :: t, l) := by
  obtain ⟨h1, h2⟩ := takeWhile_stop l c t hl hc
  unfold space0 pTakeWhile
  rw [h1, h2]

theorem pvalue_ok {α β : Type} {v : β} {p : Parser α} {i r : Input} {a : α}
    (hp : p i = .ok (r, a)) : pvalue v p i = .ok (r, v) :=
  pmap_ok hp

theorem pvalue_err {α β : Type} {v : β} {p : Parser α} {i : Input} {e : PError}
    (hp : p i = .error e) : pvalue v p i = .error e :=
  pmap_err hp

theorem pchar_cons_ok (c : Char) (t : Input) : pchar c (c :: t) = .ok (t, c) := by
  simp [pchar]

theorem pchar_cons_fail {c c' : Char} (t : Input) (h : c' ≠ c) :
    pchar c (c' :: t) = .error ⟨c' :: t, .chr⟩ := by
  simp [pchar, h]

theorem pchar_nil_fail (c : Char) : pchar c [] = .error ⟨[], .chr⟩ := rfl

/-! ### C4: the token grammar accepts non-ASCII alphabetic characters -/

/-- C4 (evidence for the code bug): the token grammar as implemented uses the
Unicode `Alphabetic` classes of `char::is_alphabetic`, so it accepts `é`
(U+00E9) as a complete token, while the head class `[A-Za-z_:]` of the
documented regex (`specTokenHead`, modelled from the spec and from the
function's own doc comment) rejects it. -/
theorem c4_token_accepts_unicode :
    tokenParser ['é'] = .ok ([], "é") ∧ specTokenHead 'é' = false := by
  constructor
  · decide
  · decide

/-! ### C6: the value grammar -/

/-- Counterexample to C6 as stated: on `"1\t2"` the claim's run of
non-whitespace characters is `"1"` (a tab is whitespace), a valid float
literal, so the claim predicts success; but `is_not("\n ")` stops only at a
space or line feed, feeds the whole of `"1\t2"` to the float parser, and the
parse fails. -/
theorem c6_counterexample :
    valueParser ('1' :: '\t' :: '2' :: []) = .error ⟨'1' :: '\t' :: '2' :: [], .mapRes⟩
    ∧ claimValueRun ('1' :: '\t' :: '2' :: []) = ['1']
    ∧ rustParseF64 (claimValueRun ('1' :: '\t' :: '2' :: [])) = some (F64.finite 1 0) := by
  refine ⟨by decide, by decide, by decide⟩

/-- C6 (amended): `value_parser` recognizes, by prefix and in priority
order, `NaN` (a value satisfying the NaN predicate), `+Inf` and `-Inf`; on
any other input it attempts a float-literal parse over the run of characters
other than space and line feed (`codeValueRun` — *not* the run of
non-whitespace characters: tab and carriage return are included in the run)
and fails exactly when that run is empty or is not a valid float literal. -/
theorem c6_value_parser_priority_and_run :
    (∀ r, valueParser ("NaN".toList ++ r) = .ok (r, F64.nan) ∧ F64.nan.isNaN = true)
    ∧ (∀ r, valueParser ("+Inf".toList ++ r) = .ok (r, F64.inf))
    ∧ (∀ r, valueParser ("-Inf".toList ++ r) = .ok (r, F64.neginf))
    ∧ (∀ i, ¬ "NaN".toList <+: i → ¬ "+Inf".toList <+: i → ¬ "-Inf".toList <+: i →
        valueParser i
          = match rustParseF64 (codeValueRun i) with
            | some v => .ok (i.dropWhile (fun c => !(['\n', ' '].contains c)), v)
            | none => .error ⟨i, if (codeValueRun i).isEmpty then .isNot else .mapRes⟩) := by
  refine ⟨?_, ?_, ?_, ?_⟩
  · intro r
    refine ⟨?_, rfl⟩
    unfold valueParser
    exact alt2_first (pvalue_ok (ptag_append "NaN".toList r))
  · intro r
    unfold valueParser
    have hN : ¬ "NaN".toList <+: ("+Inf".toList ++ r) := by
      intro hpre
      rcases hpre with ⟨t, ht⟩
      simp at ht
    rw [alt2_rest (pvalue_err (ptag_tag_mismatch hN))]
    exact alt2_first (pvalue_ok (ptag_append "+Inf".toList r))
  · intro r
    unfold valueParser
    have hN : ¬ "NaN".toList <+: ("-Inf".toList ++ r) := by
      intro hpre
      rcases hpre with ⟨t, ht⟩
      simp at ht
    have hP : ¬ "+Inf".toList <+: ("-Inf".toList ++ r) := by
      intro hpre
      rcases hpre with ⟨t, ht⟩
      simp at ht
    rw [alt2_rest (pvalue_err (ptag_tag_mismatch hN))]
    rw [alt2_rest (pvalue_err (ptag_tag_mismatch hP))]
    exact alt2_first (pvalue_ok (ptag_append "-Inf".toList r))
  · intro i hN hP hM
    unfold valueParser
    rw [alt2_rest (pvalue_err (ptag_tag_mismatch hN))]
    rw [alt2_rest (pvalue_err (ptag_tag_mismatch hP))]
    rw [alt2_rest (pvalue_err (ptag_tag_mismatch hM))]
    cases i with
    | nil =>
      show pmapRes (pIsNot ['\n', ' ']) rustParseF64 [] = _
      rfl
    | cons c t =>
      by_cases hc : (['\n', ' '].contains c) = true
      · have hc2 : c = '\n' ∨ c = ' ' := by simpa using hc
        have hIs : pIsNot ['\n', ' '] (c :: t) = .error ⟨c :: t, .isNot⟩ := by
          simp only [pIsNot]
          rw [if_pos hc]
        have hrun : codeValueRun (c :: t) = [] := by
          rcases hc2 with rfl | rfl <;> rfl
        unfold pmapRes
        rw [hIs, hrun]
        rfl
      · have hc2 : c ≠ '\n' ∧ c ≠ ' ' := by simpa using hc
        have hIs : pIsNot ['\n', ' '] (c :: t)
            = .ok ((c :: t).dropWhile (fun x => !(['\n', ' '].contains x)),
                   (c :: t).takeWhile (fun x => !(['\n', ' '].contains x))) := by
          simp only [pIsNot]
          rw [if_neg hc]
        have hrun : codeValueRun (c :: t)
            = (c :: t).takeWhile (fun x => !(['\n', ' '].contains x)) := rfl
        have hrunne : (codeValueRun (c :: t)).isEmpty = false := by
          rw [hrun]
          simp only [List.takeWhile]
          rw [show (!(['\n', ' '].contains c)) = true by simp [hc2.1, hc2.2]]
          rfl
        unfold pmapRes
        rw [hIs]
        dsimp only
        rw [← hrun]
        cases hv : rustParseF64 (codeValueRun (c :: t)) with
        | some v => rfl
        | none =>
          rw [hrunne]
          rfl

/-- Witness for the amended C6: `"2.5"` parses through the fallback branch;
`"NaN"` takes the first branch. -/
theorem c6_witness :
    (valueParser ("2.5".toList)
      = match rustParseF64 (codeValueRun ("2.5".toList)) with
        | some v => .ok (("2.5".toList).dropWhile (fun c => !(['\n', ' '].contains c)), v)
        | none => .error ⟨"2.5".toList,
            if (codeValueRun ("2.5".toList)).isEmpty then .isNot else .mapRes⟩)
    ∧ valueParser ("NaN".toList ++ []) = .ok ([], F64.nan) := by
  obtain ⟨h1, _, _, h4⟩ := c6_value_parser_priority_and_run
  exact ⟨h4 ("2.5".toList) (by decide) (by decide) (by decide), (h1 []).1⟩

theorem ppreceded_ok {α β : Type} {p : Parser α} {q : Parser β} {i i1 i2 : Input}
    {a : α} {b : β} (hp : p i = .ok (i1, a)) (hq : q i1 = .ok (i2, b)) :
    ppreceded p q i = .ok (i2, b) := by
  unfold ppreceded
  exact pmap_ok (pseq_ok hp hq)

theorem ppreceded_err1 {α β : Type} {p : Parser α} {q : Parser β} {i : Input} {e : PError}
    (hp : p i = .error e) : ppreceded p q i = .error e := by
  unfold ppreceded
  exact pmap_err (pseq_err1 hp)

theorem ppreceded_err2 {α β : Type} {p : Parser α} {q : Parser β} {i i1 : Input} {a : α}
    {e : PError} (hp : p i = .ok (i1, a)) (hq : q i1 = .error e) :
    ppreceded p q i = .error e := by
  unfold ppreceded
  exact pmap_err (pseq_err2 hp hq)

theorem pterminated_ok {α β : Type} {p : Parser α} {q : Parser β} {i i1 i2 : Input}
    {a : α} {b : β} (hp : p i = .ok (i1, a)) (hq : q i1 = .ok (i2, b)) :
    pterminated p q i = .ok (i2, a) := by
  unfold pterminated
  exact pmap_ok (pseq_ok hp hq)

theorem pterminated_err2 {α β : Type} {p : Parser α} {q : Parser β} {i i1 : Input} {a : α}
    {e : PError} (hp : p i = .ok (i1, a)) (hq : q i1 = .error e) :
    pterminated p q i = .error e := by
  unfold pterminated
  exact pmap_err (pseq_err2 hp hq)

theorem foldMany0Go_succ {α β : Type} (p : Parser α) (f : β → α → β) (fuel : Nat)
    (acc : β) (i : Input) :
    foldMany0Go p f (fuel + 1) acc i
      = match p i with
        | .error _ => .ok (i, acc)
        | .ok (r, a) =>
          if r.length < i.length then foldMany0Go p f fuel (f acc a) r
          else .error ⟨i, .many0⟩ := rfl

/-! ### C5: escape sequences in quoted label values -/

/-- Counterexample to C5 as stated: for `x` outside the three recognized
escapes, the quoted string `"\x"` does not parse with `\x` passed through
verbatim — it fails.  Literal recognition excludes the backslash, so the body
fold stops in front of `\q` and the closing-quote match then fails on the
backslash. -/
theorem c5_counterexample :
    tagValueParser ('\"' :: '\\' :: 'q' :: '\"' :: [])
        = .error ⟨'\\' :: 'q' :: '\"' :: [], .chr⟩
    ∧ tagValueParser ('\"' :: '\\' :: 'q' :: '\"' :: []) ≠ .ok ([], "\\q") := by
  refine ⟨by decide, by decide⟩

/-- C5 (amended): inside a double-quoted label value, `\n`, `\"` and `\\`
are each consumed as their unescaped character; for every other character
`x` the sequence `\x` makes the quoted-string parse fail (the backslash is
not consumable by literal recognition, which excludes backslashes, so
recognition stops and the closing-quote match fails at the backslash). -/
theorem c5_escape_sequences (x : Char)
    (h1 : x ≠ 'n') (h2 : x ≠ '\"') (h3 : x ≠ '\\') :
    tagValueParser ('\"' :: '\\' :: 'n' :: '\"' :: []) = .ok ([], "\n")
    ∧ tagValueParser ('\"' :: '\\' :: '\"' :: '\"' :: []) = .ok ([], "\"")
    ∧ tagValueParser ('\"' :: '\\' :: '\\' :: '\"' :: []) = .ok ([], "\\")
    ∧ tagValueParser ('\"' :: '\\' :: x :: '\"' :: [])
        = .error ⟨'\\' :: x :: '\"' :: [], .chr⟩ := by
  refine ⟨by decide, by decide, by decide, ?_⟩
  have hesc : escapedChar ('\\' :: x :: '\"' :: []) = .error ⟨x :: '\"' :: [], .chr⟩ := by
    unfold escapedChar alt3
    refine ppreceded_err2 (pchar_cons_ok '\\' (x :: '\"' :: [])) ?_
    rw [alt2_rest (pvalue_err (pchar_cons_fail _ h1))]
    rw [alt2_rest (pvalue_err (pchar_cons_fail _ h2))]
    exact pvalue_err (pchar_cons_fail _ h3)
  have hnone : pNoneOf ['\n', '\"', '\\'] ('\\' :: x :: '\"' :: [])
      = .error ⟨'\\' :: x :: '\"' :: [], .noneOf⟩ := by
    simp [pNoneOf]
  have hinner : alt2 escapedChar (pNoneOf ['\n', '\"', '\\']) ('\\' :: x :: '\"' :: [])
      = .error ⟨'\\' :: x :: '\"' :: [], .noneOf⟩ := by
    rw [alt2_rest hesc]
    exact hnone
  have hfold : pfoldMany0 (alt2 escapedChar (pNoneOf ['\n', '\"', '\\'])) ("" : String)
      (fun acc c => acc.push c) ('\\' :: x :: '\"' :: [])
      = .ok ('\\' :: x :: '\"' :: [], "") := by
    unfold pfoldMany0
    rw [show ('\\' :: x :: '\"' :: []).length + 1 = 3 + 1 from rfl]
    rw [foldMany0Go_succ, hinner]
  unfold tagValueParser pdelimited
  refine pterminated_err2 (ppreceded_ok (pchar_cons_ok '\"' _) hfold) ?_
  exact pchar_cons_fail _ (by decide)

/-- Witness for the amended C5: the `\n` escape unescapes, and `\q` fails. -/
theorem c5_witness :
    tagValueParser ('\"' :: '\\' :: 'n' :: '\"' :: []) = .ok ([], "\n")
    ∧ tagValueParser ('\"' :: '\\' :: 'q' :: '\"' :: [])
        = .error ⟨'\\' :: 'q' :: '\"' :: [], .chr⟩ := by
  obtain ⟨ha, _, _, hd⟩ := c5_escape_sequences 'q' (by decide) (by decide) (by decide)
  exact ⟨ha, hd⟩

/-! ### C7 helpers -/

theorem pTakeWhile1_stop {p : Char → Bool} {l : Input} {c : Char} {t : Input}
    (hl : ∀ x ∈ l, p x = true) (hc : p c = false) (hne : l ≠ []) :
    pTakeWhile1 p (l ++ c :: t) = .ok (c :: t, l) := by
  cases l with
  | nil => exact absurd rfl hne
  | cons a l' =>
    have ha : p a = true := hl a (by simp)
    obtain ⟨h1, h2⟩ := takeWhile_stop (a :: l') c t hl hc
    unfold pTakeWhile1
    dsimp only [List.cons_append]
    rw [if_pos ha]
    rw [show (a :: (l' ++ c :: t)) = (a :: l') ++ c :: t from rfl, h1, h2]

theorem pTakeWhile_stop_head {p : Char → Bool} {c : Char} {t : Input}
    (hc : p c = false) : pTakeWhile p (c :: t) = .ok (c :: t, []) := by
  unfold pTakeWhile
  simp [List.takeWhile, List.dropWhile, hc]

theorem is_simple_space_tab_nl (c : Char) (h : is_simple c = true) :
    isSpaceTab c = false ∧ c ≠ '\n' := by
  constructor
  · cases hx : isSpaceTab c
    · rfl
    · have hx2 : c = ' ' ∨ c = '\t' := by simpa [isSpaceTab] using hx
      rcases hx2 with rfl | rfl
      · exact absurd h (by decide)
      · exact absurd h (by decide)
  · intro hn
    subst hn
    exact absurd h (by decide)

theorem prefix_drop_newline {k w : List Char} (h : k <+: w ++ ['\n'])
    (hn : '\n' ∉ k) : k <+: w := by
  obtain ⟨t, ht⟩ := h
  cases t with
  | nil =>
    rw [List.append_nil] at ht
    subst ht
    exact absurd (by simp) hn
  | cons c t' =>
    have hlen : k.length ≤ w.length := by
      have hl := congrArg List.length ht
      simp [List.length_append] at hl
      omega
    have h2 : k = (w ++ ['\n']).take k.length := by
      rw [← ht, List.take_left]
    rw [h2, List.take_append_of_le_length hlen]
    exact List.take_prefix _ _

theorem not_prefix_ext {k w : List Char} (hk : ¬ k <+: w) (hn : '\n' ∉ k) :
    ¬ k <+: w ++ ['\n'] := fun h => hk (prefix_drop_newline h hn)

theorem closer_newline_fail {r0 : Char} {rt : Input}
    (h0 : isSpaceTab r0 = false) (hn : r0 ≠ '\n') :
    pseq space0 pnewline (r0 :: rt) = .error ⟨r0 :: rt, .chr⟩ := by
  have hs : space0 (r0 :: rt) = .ok (r0 :: rt, []) := by
    have h := @space0_stop [] r0 rt (by simp) h0
    simpa using h
  exact pseq_err2 hs (pchar_cons_fail rt hn)

theorem space1_single_space {c : Char} {t : Input} (hc : isSpaceTab c = false) :
    space1 (' ' :: c :: t) = .ok (c :: t, [' ']) :=
  @space1_stop [' '] c t (by decide) hc (by simp)

/-- The fixed opener `"# TYPE "` of a type declaration, evaluated on a line
whose metric name starts with a non-space character. -/
theorem typeParser_headA (n0 : Char) (nt : Input) (c : Char) (t : Input)
    (hn0st : isSpaceTab n0 = false) :
    (pseq (pseq (pseq (ptag "#".toList) space1) (ptag "TYPE".toList)) space1)
      ("# TYPE ".toList ++ (n0 :: nt) ++ c :: t)
      = .ok ((n0 :: nt) ++ c :: t, ((("#".toList, [' ']), "TYPE".toList), [' '])) := by
  have e0 : ("# TYPE ".toList ++ (n0 :: nt) ++ c :: t)
      = "#".toList ++ (' ' :: 'T' :: 'Y' :: 'P' :: 'E' :: ' ' :: ((n0 :: nt) ++ c :: t)) :=
    rfl
  rw [e0]
  exact pseq_ok
    (pseq_ok
      (pseq_ok (ptag_append "#".toList _) (space1_single_space (by decide)))
      (ptag_append "TYPE".toList (' ' :: ((n0 :: nt) ++ c :: t))))
    (space1_single_space hn0st)

/-- The name token of a type declaration stops at the first character that is
neither simple nor alphanumeric. -/
theorem tokenParser_stop (n0 : Char) (nt : Input) (c : Char) (t : Input)
    (hnmc : ∀ x ∈ n0 :: nt, is_simple x = true)
    (hc1 : is_simple c = false) (hc2 : rustIsAlphanumeric c = false) :
    tokenParser ((n0 :: nt) ++ c :: t) = .ok (c :: t, String.mk ((n0 :: nt) ++ [])) := by
  unfold tokenParser
  have h1 : pTakeWhile1 is_simple ((n0 :: nt) ++ c :: t) = .ok (c :: t, n0 :: nt) :=
    pTakeWhile1_stop hnmc hc1 (by simp)
  have h2 : pTakeWhile (fun x => is_simple x || rustIsAlphanumeric x) (c :: t)
      = .ok (c :: t, []) := pTakeWhile_stop_head (by simp [hc1, hc2])
  exact pmap_ok (pseq_ok h1 h2)

/-- A `# TYPE` line fails when the trailing whitespace/newline parse after
the keyword part fails. -/
theorem typeParser_eval_closer_err (n0 : Char) (nt : Input) (c : Char) (t : Input)
    {r2 : Input} {tv : MetricType} {e : PError}
    (hnmc : ∀ x ∈ n0 :: nt, is_simple x = true)
    (hc1 : is_simple c = false) (hc2 : rustIsAlphanumeric c = false)
    (hkw : metricKeyword (c :: t) = .ok (r2, tv))
    (hcl : pseq space0 pnewline r2 = .error e) :
    typeParser ("# TYPE ".toList ++ (n0 :: nt) ++ c :: t) = .error e := by
  obtain ⟨hn0st, _⟩ := is_simple_space_tab_nl n0 (hnmc n0 (by simp))
  unfold typeParser pdelimited
  exact pterminated_err2
    (ppreceded_ok (typeParser_headA n0 nt c t hn0st)
      (pseq_ok (tokenParser_stop n0 nt c t hnmc hc1 hc2) hkw))
    hcl

/-- A `# TYPE` line succeeds when the keyword part and the trailing
whitespace/newline parse both succeed. -/
theorem typeParser_eval_ok (n0 : Char) (nt : Input) (c : Char) (t : Input)
    {r2 : Input} {tv : MetricType} {r3 : Input} {u : Input × Char}
    (hnmc : ∀ x ∈ n0 :: nt, is_simple x = true)
    (hc1 : is_simple c = false) (hc2 : rustIsAlphanumeric c = false)
    (hkw : metricKeyword (c :: t) = .ok (r2, tv))
    (hcl : pseq space0 pnewline r2 = .ok (r3, u)) :
    typeParser ("# TYPE ".toList ++ (n0 :: nt) ++ c :: t)
      = .ok (r3, (String.mk ((n0 :: nt) ++ []), tv)) := by
  obtain ⟨hn0st, _⟩ := is_simple_space_tab_nl n0 (hnmc n0 (by simp))
  unfold typeParser pdelimited
  exact pterminated_ok
    (ppreceded_ok (typeParser_headA n0 nt c t hn0st)
      (pseq_ok (tokenParser_stop n0 nt c t hnmc hc1 hc2) hkw))
    hcl

/-- C7: a `# TYPE` line whose trailing word differs from all five type
keywords is a hard parse failure (even when a keyword is a proper prefix of
the word), whereas a `# TYPE` line with no trailing word at all parses
successfully with the type defaulting to `Untyped`.  The trailing word `w`
may be any non-empty run free of spaces, tabs and line feeds; the metric
name may be any non-empty token. -/
theorem c7_unknown_keyword_fails_absence_defaults (w nm : List Char)
    (hw : w ≠ [])
    (hwc : ∀ c ∈ w, isSpaceTab c = false ∧ c ≠ '\n')
    (hk1 : w ≠ "counter".toList) (hk2 : w ≠ "gauge".toList)
    (hk3 : w ≠ "histogram".toList) (hk4 : w ≠ "untyped".toList)
    (hk5 : w ≠ "summary".toList)
    (hnm : nm ≠ []) (hnmc : ∀ c ∈ nm, is_simple c = true) :
    isErr (typeParser ("# TYPE ".toList ++ nm ++ ' ' :: w ++ ['\n'])) = true
    ∧ typeParser ("# TYPE ".toList ++ nm ++ ['\n'])
        = .ok ([], (String.mk nm, MetricType.Untyped)) := by
  cases nm with
  | nil => exact absurd rfl hnm
  | cons n0 nt =>
  constructor
  · by_cases hc1 : "counter".toList <+: w
    · obtain ⟨r, hr⟩ := hc1
      have hrne : r ≠ [] := by
        intro h0
        rw [h0, List.append_nil] at hr
        exact hk1 hr.symm
      cases r with
      | nil => exact absurd rfl hrne
      | cons r0 rt =>
      subst hr
      obtain ⟨hr0st, hr0nl⟩ := hwc r0 (by simp)
      have halt : alt2 (pvalue MetricType.Counter (ptag "counter".toList))
          (alt2 (pvalue MetricType.Gauge (ptag "gauge".toList))
            (alt2 (pvalue MetricType.Histogram (ptag "histogram".toList))
              (alt2 (pvalue MetricType.Untyped (ptag "untyped".toList))
                (pvalue MetricType.Summary (ptag "summary".toList)))))
          (("counter".toList ++ r0 :: rt) ++ ['\n'])
          = .ok ((r0 :: rt) ++ ['\n'], MetricType.Counter) := by
        have hpt : ptag "counter".toList (("counter".toList ++ r0 :: rt) ++ ['\n'])
            = .ok ((r0 :: rt) ++ ['\n'], "counter".toList) := by
          rw [List.append_assoc]
          exact ptag_append "counter".toList ((r0 :: rt) ++ ['\n'])
        exact alt2_first (pvalue_ok hpt)
      have hkw : metricKeyword (' ' :: ("counter".toList ++ r0 :: rt) ++ ['\n'])
          = .ok ((r0 :: rt) ++ ['\n'], MetricType.Counter) := by
        unfold metricKeyword
        exact pmap_ok (popt_some (ppreceded_ok (space1_single_space (by decide)) halt))
      have hcl : pseq space0 pnewline ((r0 :: rt) ++ ['\n'])
          = .error ⟨(r0 :: rt) ++ ['\n'], .chr⟩ :=
        @closer_newline_fail r0 (rt ++ ['\n']) hr0st hr0nl
      rw [List.append_assoc, List.cons_append, typeParser_eval_closer_err n0 nt ' ' (("counter".toList ++ r0 :: rt) ++ ['\n']) hnmc (by decide) (by decide) hkw hcl]
      rfl
    · by_cases hc2 : "gauge".toList <+: w
      · obtain ⟨r, hr⟩ := hc2
        have hrne : r ≠ [] := by
          intro h0
          rw [h0, List.append_nil] at hr
          exact hk2 hr.symm
        cases r with
        | nil => exact absurd rfl hrne
        | cons r0 rt =>
        subst hr
        obtain ⟨hr0st, hr0nl⟩ := hwc r0 (by simp)
        have halt : alt2 (pvalue MetricType.Counter (ptag "counter".toList))
            (alt2 (pvalue MetricType.Gauge (ptag "gauge".toList))
              (alt2 (pvalue MetricType.Histogram (ptag "histogram".toList))
                (alt2 (pvalue MetricType.Untyped (ptag "untyped".toList))
                  (pvalue MetricType.Summary (ptag "summary".toList)))))
            (("gauge".toList ++ r0 :: rt) ++ ['\n'])
            = .ok ((r0 :: rt) ++ ['\n'], MetricType.Gauge) := by
          rw [alt2_rest (pvalue_err (ptag_tag_mismatch (not_prefix_ext hc1 (by decide))))]
          have hpt : ptag "gauge".toList (("gauge".toList ++ r0 :: rt) ++ ['\n'])
              = .ok ((r0 :: rt) ++ ['\n'], "gauge".toList) := by
            rw [List.append_assoc]
            exact ptag_append "gauge".toList ((r0 :: rt) ++ ['\n'])
          exact alt2_first (pvalue_ok hpt)
        have hkw : metricKeyword (' ' :: ("gauge".toList ++ r0 :: rt) ++ ['\n'])
            = .ok ((r0 :: rt) ++ ['\n'], MetricType.Gauge) := by
          unfold metricKeyword
          exact pmap_ok (popt_some (ppreceded_ok (space1_single_space (by decide)) halt))
        have hcl : pseq space0 pnewline ((r0 :: rt) ++ ['\n'])
            = .error ⟨(r0 :: rt) ++ ['\n'], .chr⟩ :=
          @closer_newline_fail r0 (rt ++ ['\n']) hr0st hr0nl
        rw [List.append_assoc, List.cons_append, typeParser_eval_closer_err n0 nt ' ' (("gauge".toList ++ r0 :: rt) ++ ['\n']) hnmc (by decide) (by decide) hkw hcl]
        rfl
      · by_cases hc3 : "histogram".toList <+: w
        · obtain ⟨r, hr⟩ := hc3
          have hrne : r ≠ [] := by
            intro h0
            rw [h0, List.append_nil] at hr
            exact hk3 hr.symm
          cases r with
          | nil => exact absurd rfl hrne
          | cons r0 rt =>
          subst hr
          obtain ⟨hr0st, hr0nl⟩ := hwc r0 (by simp)
          have halt : alt2 (pvalue MetricType.Counter (ptag "counter".toList))
              (alt2 (pvalue MetricType.Gauge (ptag "gauge".toList))
                (alt2 (pvalue MetricType.Histogram (ptag "histogram".toList))
                  (alt2 (pvalue MetricType.Untyped (ptag "untyped".toList))
                    (pvalue MetricType.Summary (ptag "summary".toList)))))
              (("histogram".toList ++ r0 :: rt) ++ ['\n'])
              = .ok ((r0 :: rt) ++ ['\n'], MetricType.Histogram) := by
            rw [alt2_rest (pvalue_err (ptag_tag_mismatch (not_prefix_ext hc1 (by decide))))]
            rw [alt2_rest (pvalue_err (ptag_tag_mismatch (not_prefix_ext hc2 (by decide))))]
            have hpt : ptag "histogram".toList (("histogram".toList ++ r0 :: rt) ++ ['\n'])
                = .ok ((r0 :: rt) ++ ['\n'], "histogram".toList) := by
              rw [List.append_assoc]
              exact ptag_append "histogram".toList ((r0 :: rt) ++ ['\n'])
            exact alt2_first (pvalue_ok hpt)
          have hkw : metricKeyword (' ' :: ("histogram".toList ++ r0 :: rt) ++ ['\n'])
              = .ok ((r0 :: rt) ++ ['\n'], MetricType.Histogram) := by
            unfold metricKeyword
            exact pmap_ok (popt_some (ppreceded_ok (space1_single_space (by decide)) halt))
          have hcl : pseq space0 pnewline ((r0 :: rt) ++ ['\n'])
              = .error ⟨(r0 :: rt) ++ ['\n'], .chr⟩ :=
            @closer_newline_fail r0 (rt ++ ['\n']) hr0st hr0nl
          rw [List.append_assoc, List.cons_append, typeParser_eval_closer_err n0 nt ' ' (("histogram".toList ++ r0 :: rt) ++ ['\n']) hnmc (by decide) (by decide) hkw hcl]
          rfl
        · by_cases hc4 : "untyped".toList <+: w
          · obtain ⟨r, hr⟩ := hc4
            have hrne : r ≠ [] := by
              intro h0
              rw [h0, List.append_nil] at hr
              exact hk4 hr.symm
            cases r with
            | nil => exact absurd rfl hrne
            | cons r0 rt =>
            subst hr
            obtain ⟨hr0st, hr0nl⟩ := hwc r0 (by simp)
            have halt : alt2 (pvalue MetricType.Counter (ptag "counter".toList))
                (alt2 (pvalue MetricType.Gauge (ptag "gauge".toList))
                  (alt2 (pvalue MetricType.Histogram (ptag "histogram".toList))
                    (alt2 (pvalue MetricType.Untyped (ptag "untyped".toList))
                      (pvalue MetricType.Summary (ptag "summary".toList)))))
                (("untyped".toList ++ r0 :: rt) ++ ['\n'])
                = .ok ((r0 :: rt) ++ ['\n'], MetricType.Untyped) := by
              rw [alt2_rest (pvalue_err (ptag_tag_mismatch (not_prefix_ext hc1 (by decide))))]
              rw [alt2_rest (pvalue_err (ptag_tag_mismatch (not_prefix_ext hc2 (by decide))))]
              rw [alt2_rest (pvalue_err (ptag_tag_mismatch (not_prefix_ext hc3 (by decide))))]
              have hpt : ptag "untyped".toList (("untyped".toList ++ r0 :: rt) ++ ['\n'])
                  = .ok ((r0 :: rt) ++ ['\n'], "untyped".toList) := by
                rw [List.append_assoc]
                exact ptag_append "untyped".toList ((r0 :: rt) ++ ['\n'])
              exact alt2_first (pvalue_ok hpt)
            have hkw : metricKeyword (' ' :: ("untyped".toList ++ r0 :: rt) ++ ['\n'])
                = .ok ((r0 :: rt) ++ ['\n'], MetricType.Untyped) := by
              unfold metricKeyword
              exact pmap_ok (popt_some (ppreceded_ok (space1_single_space (by decide)) halt))
            have hcl : pseq space0 pnewline ((r0 :: rt) ++ ['\n'])
                = .error ⟨(r0 :: rt) ++ ['\n'], .chr⟩ :=
              @closer_newline_fail r0 (rt ++ ['\n']) hr0st hr0nl
            rw [List.append_assoc, List.cons_append, typeParser_eval_closer_err n0 nt ' ' (("untyped".toList ++ r0 :: rt) ++ ['\n']) hnmc (by decide) (by decide) hkw hcl]
            rfl
          · by_cases hc5 : "summary".toList <+: w
            · obtain ⟨r, hr⟩ := hc5
              have hrne : r ≠ [] := by
                intro h0
                rw [h0, List.append_nil] at hr
                exact hk5 hr.symm
              cases r with
              | nil => exact absurd rfl hrne
              | cons r0 rt =>
              subst hr
              obtain ⟨hr0st, hr0nl⟩ := hwc r0 (by simp)
              have halt : alt2 (pvalue MetricType.Counter (ptag "counter".toList))
                  (alt2 (pvalue MetricType.Gauge (ptag "gauge".toList))
                    (alt2 (pvalue MetricType.Histogram (ptag "histogram".toList))
                      (alt2 (pvalue MetricType.Untyped (ptag "untyped".toList))
                        (pvalue MetricType.Summary (ptag "summary".toList)))))
                  (("summary".toList ++ r0 :: rt) ++ ['\n'])
                  = .ok ((r0 :: rt) ++ ['\n'], MetricType.Summary) := by
                rw [alt2_rest (pvalue_err (ptag_tag_mismatch (not_prefix_ext hc1 (by decide))))]
                rw [alt2_rest (pvalue_err (ptag_tag_mismatch (not_prefix_ext hc2 (by decide))))]
                rw [alt2_rest (pvalue_err (ptag_tag_mismatch (not_prefix_ext hc3 (by decide))))]
                rw [alt2_rest (pvalue_err (ptag_tag_mismatch (not_prefix_ext hc4 (by decide))))]
                have hpt : ptag "summary".toList (("summary".toList ++ r0 :: rt) ++ ['\n'])
                    = .ok ((r0 :: rt) ++ ['\n'], "summary".toList) := by
                  rw [List.append_assoc]
                  exact ptag_append "summary".toList ((r0 :: rt) ++ ['\n'])
                exact pvalue_ok hpt
              have hkw : metricKeyword (' ' :: ("summary".toList ++ r0 :: rt) ++ ['\n'])
                  = .ok ((r0 :: rt) ++ ['\n'], MetricType.Summary) := by
                unfold metricKeyword
                exact pmap_ok (popt_some (ppreceded_ok (space1_single_space (by decide)) halt))
              have hcl : pseq space0 pnewline ((r0 :: rt) ++ ['\n'])
                  = .error ⟨(r0 :: rt) ++ ['\n'], .chr⟩ :=
                @closer_newline_fail r0 (rt ++ ['\n']) hr0st hr0nl
              rw [List.append_assoc, List.cons_append, typeParser_eval_closer_err n0 nt ' ' (("summary".toList ++ r0 :: rt) ++ ['\n']) hnmc (by decide) (by decide) hkw hcl]
              rfl
            · cases w with
              | nil => exact absurd rfl hw
              | cons w0 wt =>
              obtain ⟨hw0st, hw0nl⟩ := hwc w0 (by simp)
              have halt : alt2 (pvalue MetricType.Counter (ptag "counter".toList))
                  (alt2 (pvalue MetricType.Gauge (ptag "gauge".toList))
                    (alt2 (pvalue MetricType.Histogram (ptag "histogram".toList))
                      (alt2 (pvalue MetricType.Untyped (ptag "untyped".toList))
                        (pvalue MetricType.Summary (ptag "summary".toList)))))
                  ((w0 :: wt) ++ ['\n'])
                  = .error ⟨(w0 :: wt) ++ ['\n'], .tag⟩ := by
                rw [alt2_rest (pvalue_err (ptag_tag_mismatch (not_prefix_ext hc1 (by decide))))]
                rw [alt2_rest (pvalue_err (ptag_tag_mismatch (not_prefix_ext hc2 (by decide))))]
                rw [alt2_rest (pvalue_err (ptag_tag_mismatch (not_prefix_ext hc3 (by decide))))]
                rw [alt2_rest (pvalue_err (ptag_tag_mismatch (not_prefix_ext hc4 (by decide))))]
                exact pvalue_err (ptag_tag_mismatch (not_prefix_ext hc5 (by decide)))
              have hkw : metricKeyword (' ' :: (w0 :: wt) ++ ['\n'])
                  = .ok (' ' :: (w0 :: wt) ++ ['\n'], MetricType.Untyped) := by
                unfold metricKeyword
                exact pmap_ok (popt_none (ppreceded_err2 (space1_single_space hw0st) halt))
              have hcl : pseq space0 pnewline (' ' :: (w0 :: wt) ++ ['\n'])
                  = .error ⟨(w0 :: wt) ++ ['\n'], .chr⟩ := by
                have hs : space0 (' ' :: (w0 :: wt) ++ ['\n'])
                    = .ok ((w0 :: wt) ++ ['\n'], [' ']) :=
                  @space0_stop [' '] w0 (wt ++ ['\n']) (by decide) hw0st
                exact pseq_err2 hs (pchar_cons_fail _ hw0nl)
              rw [List.append_assoc, List.cons_append, typeParser_eval_closer_err n0 nt ' ' ((w0 :: wt) ++ ['\n']) hnmc (by decide) (by decide) hkw hcl]
              rfl
  · have hkw : metricKeyword ('\n' :: []) = .ok (['\n'], MetricType.Untyped) := by
      unfold metricKeyword
      exact pmap_ok (popt_none (ppreceded_err1 (space1_fail (by decide))))
    have hcl : pseq space0 pnewline ['\n'] = .ok ([], ([], '\n')) := by decide
    rw [typeParser_eval_ok n0 nt '\n' [] hnmc (by decide) (by decide) hkw hcl,
      List.append_nil]

/-- Witness for C7: `sometype` fails the `# TYPE x ...` line; `# TYPE x`
with no keyword parses as `Untyped`. -/
theorem c7_witness :
    isErr (typeParser ("# TYPE ".toList ++ "x".toList ++ ' ' :: "sometype".toList ++ ['\n']))
      = true
    ∧ typeParser ("# TYPE ".toList ++ "x".toList ++ ['\n'])
        = .ok ([], (String.mk "x".toList, MetricType.Untyped)) :=
  c7_unknown_keyword_fails_absence_defaults "sometype".toList "x".toList
    (by decide) (by decide) (by decide) (by decide) (by decide) (by decide) (by decide)
    (by decide) (by decide)

end PromExpo
